import Mathlib

/-!
Verification of the image-scrambling engine of this repository:
the generalized Hilbert ("gilbert") curve pixel scrambler
(`src/lib/crypto/gilbert.ts`) and the keyed block shuffler
(`block-shuffle`, the unnamed source file exporting `BlockShuffleAlgo`).

JavaScript `number` arithmetic on the code paths below is integer-valued
except for two places:
  * `parseFloat('0.' + idx2) * seed` followed by `Math.floor` evaluates in
    IEEE-754 binary64.  Two embeddings are provided: `getRnd` evaluates the
    same expression in exact rational arithmetic (the idealization used by
    the shuffle theorems, whose properties — determinism, `target ≤ i`,
    swap self-inversion, the range bound — do not depend on which of the
    two semantics is used), and `getRndFloat` evaluates it faithfully under
    binary64 rounding via `fl64`.  The two give different values at some
    reachable inputs (see `C6_counterexample`);
  * `Math.round(((Math.sqrt 5 - 1) / 2) * n)` is embedded as the exact
    rounding of the real number `((√5 - 1) / 2) * n`, computed with `Nat.sqrt`.
All other operations (`Math.floor(x/2)` on integers, `Math.sign`, `Math.abs`,
`%`) are exact on integers and are embedded with `Int.fdiv`, `Int.sign`,
`Int.natAbs` and `%`.
-/

namespace ImageCrypto

/-! ### GilbertAlgo (src/lib/crypto/gilbert.ts) -/

/-- `GilbertAlgo.generate2d`, embedded as a function returning the list of
emitted coordinates (the source appends to a shared accumulator array).
The recursion is fueled; `gilbert2d` supplies fuel `width*height + 1`,
which is sufficient because the spanned area strictly decreases at every
recursive call. -/
def generate2d : Nat → Int → Int → Int → Int → Int → Int → List (Int × Int)
  | 0, _, _, _, _, _, _ => []
  | fuel+1, x, y, ax, ay, bx, by_ =>
    let w := (ax + ay).natAbs
    let h := (bx + by_).natAbs
    let dax := ax.sign
    let day := ay.sign
    let dbx := bx.sign
    let dby := by_.sign
    if h = 1 then
      (List.range w).map (fun (i : Nat) => (x + (i : Int) * dax, y + (i : Int) * day))
    else if w = 1 then
      (List.range h).map (fun (i : Nat) => (x + (i : Int) * dbx, y + (i : Int) * dby))
    else
      let ax2 := Int.fdiv ax 2
      let ay2 := Int.fdiv ay 2
      let bx2 := Int.fdiv bx 2
      let by2 := Int.fdiv by_ 2
      let w2 := (ax2 + ay2).natAbs
      let h2 := (bx2 + by2).natAbs
      if 2 * w > 3 * h then
        let ax2' := if w2 % 2 = 1 ∧ w > 2 then ax2 + dax else ax2
        let ay2' := if w2 % 2 = 1 ∧ w > 2 then ay2 + day else ay2
        generate2d fuel x y ax2' ay2' bx by_ ++
        generate2d fuel (x + ax2') (y + ay2') (ax - ax2') (ay - ay2') bx by_
      else
        let bx2' := if h2 % 2 = 1 ∧ h > 2 then bx2 + dbx else bx2
        let by2' := if h2 % 2 = 1 ∧ h > 2 then by2 + dby else by2
        generate2d fuel x y bx2' by2' ax2 ay2 ++
        generate2d fuel (x + bx2') (y + by2') ax ay (bx - bx2') (by_ - by2') ++
        generate2d fuel (x + (ax - dax) + (bx2' - dbx)) (y + (ay - day) + (by2' - dby))
          (-bx2') (-by2') (-(ax - ax2)) (-(ay - ay2))

/-- `GilbertAlgo.gilbert2d`. -/
def gilbert2d (width height : Nat) : List (Int × Int) :=
  if height ≤ width then
    generate2d (width * height + 1) 0 0 (width : Int) 0 0 (height : Int)
  else
    generate2d (width * height + 1) 0 0 0 (height : Int) (width : Int) 0

/-- The cyclic offset `Math.round(((Math.sqrt(5) - 1) / 2) * n)` of
`GilbertAlgo.process`, in exact arithmetic:
`round((√5-1)/2 * n) = ⌊(n*√5 - n + 1)/2⌋ = (⌊√(5n²)⌋ - n + 1) / 2`. -/
def goldenOffset (n : Nat) : Nat :=
  (Nat.sqrt (5 * n * n) - n + 1) / 2

/-- Processing mode, `'encrypt' | 'decrypt'`. -/
inductive CMode where
  | encrypt
  | decrypt
deriving DecidableEq

/-- `GilbertAlgo.process`. The `ImageData` pixel buffer is embedded as a
function from (integer) flat byte index to byte value; the output buffer
starts as a copy of the input (`new Uint8ClampedArray(imgData.data)`) and the
loop overwrites it position by position, reading from the input buffer. -/
def gilbertProcess (width height : Nat) (mode : CMode) (data : Int → Nat) : Int → Nat :=
  let curve := gilbert2d width height
  let offset := goldenOffset (width * height)
  let totalPixels := width * height
  (List.range totalPixels).foldl (fun nd i =>
    let old_pos := curve.getD i (0, 0)
    let new_pos := curve.getD ((i + offset) % totalPixels) (0, 0)
    let old_p := 4 * (old_pos.1 + old_pos.2 * width)
    let new_p := 4 * (new_pos.1 + new_pos.2 * width)
    match mode with
    | .encrypt =>
      (List.range 4).foldl (fun nd2 c => Function.update nd2 (new_p + c) (data (old_p + c))) nd
    | .decrypt =>
      (List.range 4).foldl (fun nd2 c => Function.update nd2 (old_p + c) (data (new_p + c))) nd)
    data

/-! ### BlockShuffleAlgo (block-shuffle source file) -/

def DEFAULT_KEY : String := "hadsky.com"

/-- `key.charCodeAt(i)` (in-range for every call site reached). -/
def charCodeAt (s : String) (i : Nat) : Nat :=
  (s.data.getD i ' ').toNat

/-- Number of decimal digits of `n` as produced by string conversion
(`'0.' + index`); `0` prints as `"0"`, one digit.  Structural fuel makes the
definition kernel-reducible. -/
def decLenAux : Nat → Nat → Nat
  | 0, _ => 1
  | fuel+1, n => if n < 10 then 1 else decLenAux fuel (n / 10) + 1

def decLen (n : Nat) : Nat := decLenAux n n

/-- `getRnd(key, seed)`: the custom weak PRNG, with
`Math.floor(parseFloat('0.' + index2) * seed)` evaluated in exact rational
arithmetic as `index2 * seed / 10 ^ (decimal digits of index2)`.  This is an
idealization: the source evaluates the expression in IEEE-754 binary64,
embedded faithfully by `getRndFloat` below; the two differ at some
reachable inputs (`C6_counterexample`), but the shuffle properties proved
in this file (determinism, `target ≤ i`, the range bound, swap
self-inversion) hold under either semantics. -/
def getRnd (key : String) (seed : Nat) : Nat :=
  let index := seed % key.length
  let index2 := charCodeAt key index % key.length
  (index2 * seed) / 10 ^ decLen index2

/-- Swap of two positions of a list (the JS destructuring swap
`[arr[i], arr[j]] = [arr[j], arr[i]]`). -/
def swapL (l : List α) (i j : Nat) : List α :=
  match l[i]?, l[j]? with
  | some a, some b => (l.set i b).set j a
  | _, _ => l

/-- `performShuffle(arr, key, reverse)` (closure inside `shuffleArray`;
`len` is the captured outer array length). -/
def performShuffle (len : Nat) (key : String) (reverse : Bool) (arr : List α) : List α :=
  if reverse then
    (List.range len).foldl (fun a i => swapL a (getRnd key (i + 1)) i) arr
  else
    ((List.range' 1 (len - 1)).reverse).foldl (fun a i => swapL a i (getRnd key (i + 1))) arr

/-- `shuffleArray(array, seedKey, isDecrypt)`. -/
def shuffleArray (arr : List α) (seedKey : String) (isDecrypt : Bool) : List α :=
  let len := arr.length
  if !isDecrypt then
    let a1 := arr.reverse
    let a2 := performShuffle len DEFAULT_KEY false a1
    if seedKey.length ≠ 0 then performShuffle len seedKey false a2 else a2
  else
    let a1 := if seedKey.length ≠ 0 then performShuffle len seedKey true arr else arr
    let a2 := performShuffle len DEFAULT_KEY true a1
    a2.reverse

/-! The canvas (`CanvasRenderingContext2D`) is embedded as a total function
from pixel coordinates to pixel values; an `ImageData` tile of size
`bw × bh` is a function defined (clipped) on `[0,bw) × [0,bh)` — an
`ImageData` object holds no pixels outside its own extent, so reads outside
it yield the cleared value `default`. -/

/-- `ctx.getImageData(x0, y0, bw, bh)`. -/
def getImageData {α : Type} [Inhabited α] (c : Nat → Nat → α) (x0 y0 bw bh : Nat) :
    Nat → Nat → α :=
  fun i j => if i < bw ∧ j < bh then c (x0 + i) (y0 + j) else default

/-- `ctx.putImageData(tile, x0, y0)` for a `bw × bh` tile. -/
def putImageData {α : Type} (c : Nat → Nat → α) (tile : Nat → Nat → α)
    (x0 y0 bw bh : Nat) : Nat → Nat → α :=
  fun px py =>
    if x0 ≤ px ∧ px < x0 + bw ∧ y0 ≤ py ∧ py < y0 + bh then tile (px - x0) (py - y0)
    else c px py

/-- `ctx.clearRect(0, 0, width, height)`. -/
def clearRect {α : Type} [Inhabited α] (c : Nat → Nat → α) (width height : Nat) :
    Nat → Nat → α :=
  fun px py => if px < width ∧ py < height then default else c px py

/-- Step 1 of `BlockShuffleAlgo.process`: cut the canvas into `level × level`
tiles, row-major (`y` outer, `x` inner). -/
def extractBlocks {α : Type} [Inhabited α] (c : Nat → Nat → α)
    (level blockW blockH : Nat) : List (Nat → Nat → α) :=
  (List.range level).flatMap (fun y => (List.range level).map (fun x =>
    getImageData c (x * blockW) (y * blockH) blockW blockH))

/-- Step 3 of `BlockShuffleAlgo.process`: repaint the tiles row-major, with
the defensive `index < blocks.length` guard of the source. -/
def paintBlocks {α : Type} [Inhabited α] (base : Nat → Nat → α)
    (blocks : List (Nat → Nat → α)) (level blockW blockH : Nat) : Nat → Nat → α :=
  (List.range level).foldl (fun acc y =>
    (List.range level).foldl (fun acc2 x =>
      let index := y * level + x
      if index < blocks.length then
        putImageData acc2 (blocks.getD index (fun _ _ => default))
          (x * blockW) (y * blockH) blockW blockH
      else acc2) acc) base

/-- `BlockShuffleAlgo.process`.  The mutable canvas is passed as explicit
state: the result is the final canvas together with the error raised (if
any); the source throws before any canvas mutation, so on the error path the
canvas is returned untouched. -/
def blockProcess {α : Type} [Inhabited α] (c : Nat → Nat → α)
    (width height level : Nat) (key : String) (isDecrypt : Bool) :
    (Nat → Nat → α) × Option String :=
  let blockW := width / level
  let blockH := height / level
  if blockW = 0 ∨ blockH = 0 then
    (c, some "图片尺寸太小或混淆等级太高")
  else
    let blocks := extractBlocks c level blockW blockH
    let blocks := shuffleArray blocks key isDecrypt
    let c0 := clearRect c width height
    (paintBlocks c0 blocks level blockW blockH, none)

/-! ### Specification-side definitions (for refinement comparisons only) -/

/-- The spec's reference formula for the weak PRNG, following its words:
"let `idx = seed mod length(key)`; let `idx2 = (character code of key[idx])
mod length(key)`; form the fractional decimal literal `"0." + idx2` as a
decimal number, multiply by `seed`, floor to an integer" — stated with exact
rational arithmetic. -/
def rndSpec (key : String) (seed : Nat) : Nat :=
  let idx := seed % key.length
  let idx2 := charCodeAt key idx % key.length
  ⌊((idx2 : ℚ) / (10 : ℚ) ^ decLen idx2) * (seed : ℚ)⌋.toNat

/-- `⌊log₂ n⌋` for `n ≥ 1`, with structural fuel so that it is
kernel-reducible. -/
def log2Aux : Nat → Nat → Nat
  | 0, _ => 0
  | fuel+1, n => if n ≤ 1 then 0 else log2Aux fuel (n / 2) + 1

def natLog2 (n : Nat) : Nat := log2Aux n n

/-- `2 ^ j ≤ a / b` for a positive rational given as numerator `a` and
denominator `b`. -/
def twoPowLe (j : Int) (a b : Nat) : Bool :=
  if 0 ≤ j then decide (b * 2 ^ j.toNat ≤ a) else decide (b ≤ a * 2 ^ (-j).toNat)

/-- `⌊log₂ (a / b)⌋` for positive naturals `a`, `b`: the bit-length estimate
`⌊log₂ a⌋ - ⌊log₂ b⌋` is off by at most one, so two comparisons pin it
down. -/
def ratLog2 (a b : Nat) : Int :=
  let k : Int := (natLog2 a : Int) - (natLog2 b : Int)
  if twoPowLe (k + 1) a b then k + 1
  else if twoPowLe k a b then k
  else k - 1

/-- Round `a / b` to the nearest integer, ties to even (the IEEE-754
default rounding attitude, restricted to nonnegative values). -/
def roundEvenDiv (a b : Nat) : Nat :=
  let q := a / b
  let r := a % b
  if 2 * r < b then q
  else if b < 2 * r then q + 1
  else if q % 2 = 0 then q else q + 1

/-- The IEEE-754 binary64 rounding of the nonnegative rational `a / b`
(round to nearest, ties to even), returned as a dyadic pair `(m, t)` whose
value is `m / 2^t` with `t = 52 - ⌊log₂ (a / b)⌋` (53-bit significand).
Only the normal range is modelled — every value reached in this development
is far from both overflow and the subnormal threshold. -/
def fl64 (a b : Nat) : Nat × Int :=
  let e := ratLog2 a b
  let t : Int := 52 - e
  let m := if 0 ≤ t then roundEvenDiv (a * 2 ^ t.toNat) b
           else roundEvenDiv a (b * 2 ^ (-t).toNat)
  (m, t)

/-- `getRnd(key, seed)` under the source's IEEE-754 binary64 semantics:
`parseFloat('0.' + index2)` returns the double nearest to the decimal value
`index2 / 10 ^ decLen index2`; the multiplication by `seed` (itself exactly
representable as a double at all reachable magnitudes) rounds its result
again; `Math.floor` is exact. -/
def getRndFloat (key : String) (seed : Nat) : Nat :=
  let index := seed % key.length
  let index2 := charCodeAt key index % key.length
  let p := fl64 index2 (10 ^ decLen index2)
  let q := if 0 ≤ p.2 then fl64 (p.1 * seed) (2 ^ p.2.toNat)
           else fl64 (p.1 * seed * 2 ^ (-p.2).toNat) 1
  if 0 ≤ q.2 then q.1 / 2 ^ q.2.toNat else q.1 * 2 ^ (-q.2).toNat

/-! ### Derived notions used to state the claims -/

/-- One unit step in exactly one axis (Manhattan distance 1). -/
def unitStep (p q : Int × Int) : Prop :=
  (p.1 - q.1).natAbs + (p.2 - q.2).natAbs = 1

instance (p q : Int × Int) : Decidable (unitStep p q) :=
  Nat.decEq ((p.1 - q.1).natAbs + (p.2 - q.2).natAbs) 1

instance : DecidablePred (fun pq : (Int × Int) × (Int × Int) => unitStep pq.1 pq.2) :=
  fun pq => Nat.decEq ((pq.1.1 - pq.2.1).natAbs + (pq.1.2 - pq.2.2).natAbs) 1

/-- The canonical enumeration of all cells of a `w × h` grid. -/
def allCells (w h : Nat) : List (Int × Int) :=
  (List.range w).flatMap (fun (i : Nat) =>
    (List.range h).map (fun (j : Nat) => ((i : Int), (j : Int))))

/-- The axis-parallel rectangle of cells with origin `(x, y)`, unit step
`(dax, day)` along the first axis (`w` cells) and `(dbx, dby)` along the
second (`h` cells). -/
def rectList (x y dax day dbx dby : Int) (w h : Nat) : List (Int × Int) :=
  (List.range w).flatMap (fun (i : Nat) => (List.range h).map (fun (j : Nat) =>
    (x + (i : Int) * dax + (j : Int) * dbx, y + (i : Int) * day + (j : Int) * dby)))

/-- Invariant of `generate2d`'s arguments: the two spanning vectors are
axis-aligned, orthogonal and nonzero. -/
def Axis (ax ay bx by_ : Int) : Prop :=
  (ay = 0 ∧ bx = 0 ∧ ax ≠ 0 ∧ by_ ≠ 0) ∨ (ax = 0 ∧ by_ = 0 ∧ ay ≠ 0 ∧ bx ≠ 0)

/-- Sequential write of (position, value) pairs into a buffer
(the inner loops of `GilbertAlgo.process`). -/
def writeAll {β : Type} (init : Int → β) (ps : List (Int × β)) : Int → β :=
  ps.foldl (fun f pv => Function.update f pv.1 pv.2) init

/-- The row-major traversal order of an `n × n` grid of tile positions
(`y` outer, `x` inner), used to flatten the two nested repaint loops. -/
def gridPairs (n : Nat) : List (Nat × Nat) :=
  (List.range n).flatMap (fun y => (List.range n).map (fun x => (x, y)))

/-- The curve cell used at loop index `i` of `GilbertAlgo.process`
(`curve[i]`, with the embedding's out-of-range default). -/
def curveAt (w h : Nat) (i : Nat) : Int × Int := (gilbert2d w h).getD i (0, 0)

/-- The byte offset of a pixel cell in the flat RGBA buffer
(`4 * (pos[0] + pos[1] * width)` in `GilbertAlgo.process`). -/
def pixPos (w : Nat) (p : Int × Int) : Int := 4 * (p.1 + p.2 * (w : Int))

/-- The flat list of (position, value) writes performed by
`GilbertAlgo.process` on `data`, in loop order. -/
def procPairs (w h : Nat) (mode : CMode) (data : Int → Nat) : List (Int × Nat) :=
  (List.range (w * h)).flatMap (fun (i : Nat) =>
    (List.range 4).map (fun (c : Nat) =>
      match mode with
      | CMode.encrypt =>
          (pixPos w (curveAt w h ((i + goldenOffset (w * h)) % (w * h))) + (c : Int),
           data (pixPos w (curveAt w h i) + (c : Int)))
      | CMode.decrypt =>
          (pixPos w (curveAt w h i) + (c : Int),
           data (pixPos w (curveAt w h ((i + goldenOffset (w * h)) % (w * h))) + (c : Int)))))

/-! ## Proofs -/

/-! ### The weak PRNG -/

theorem decLenAux_bound : ∀ fuel n : Nat, n ≤ fuel → n < 10 ^ decLenAux fuel n := by
  intro fuel
  induction fuel with
  | zero =>
    intro n hn
    have : n = 0 := by omega
    subst this
    simp [decLenAux]
  | succ m ih =>
    intro n hn
    unfold decLenAux
    by_cases h : n < 10
    · simp only [h, if_true]
      simpa using h
    · simp only [h, if_false]
      have hdiv : n / 10 ≤ m := by omega
      have hlt := ih (n / 10) hdiv
      rw [pow_succ]
      omega

theorem lt_pow_decLen (n : Nat) : n < 10 ^ decLen n :=
  decLenAux_bound n n le_rfl

/-- The PRNG output is strictly below its seed (for a positive seed): the
decimal fraction `0.idx2` is strictly below `1`. -/
theorem getRnd_lt (key : String) (seed : Nat) (hs : 1 ≤ seed) : getRnd key seed < seed := by
  unfold getRnd
  set i2 := charCodeAt key (seed % key.length) % key.length with hi2
  have h1 : i2 < 10 ^ decLen i2 := lt_pow_decLen i2
  have hp : 0 < 10 ^ decLen i2 := Nat.pos_pow_of_pos _ (by norm_num)
  rw [Nat.div_lt_iff_lt_mul hp]
  calc i2 * seed < 10 ^ decLen i2 * seed := by
        exact Nat.mul_lt_mul_of_lt_of_le h1 le_rfl hs
    _ = seed * 10 ^ decLen i2 := Nat.mul_comm _ _

theorem getRnd_le (key : String) (i : Nat) : getRnd key (i + 1) ≤ i :=
  Nat.lt_succ_iff.mp (getRnd_lt key (i + 1) (Nat.succ_le_succ (Nat.zero_le _)))

theorem getRnd_one (key : String) : getRnd key 1 = 0 :=
  Nat.lt_one_iff.mp (getRnd_lt key 1 le_rfl)

/-- The source `getRnd` computes exactly the spec's reference decimal-fraction
formula. -/
theorem getRnd_eq_rndSpec (key : String) (seed : Nat) :
    getRnd key seed = rndSpec key seed := by
  have hgen : ∀ i2 s : Nat,
      (⌊((i2 : ℚ) / (10 : ℚ) ^ decLen i2) * (s : ℚ)⌋.toNat) = i2 * s / 10 ^ decLen i2 := by
    intro i2 s
    have hcast : ((i2 : ℚ) / (10 : ℚ) ^ decLen i2) * (s : ℚ)
        = ((i2 * s : ℕ) : ℚ) / (((10 : ℕ) ^ decLen i2 : ℕ) : ℚ) := by
      push_cast
      ring
    rw [hcast, Int.floor_toNat, Nat.floor_div_nat, Nat.floor_natCast]
  unfold getRnd rndSpec
  exact (hgen (charCodeAt key (seed % key.length) % key.length) seed).symm

/-! ### List swaps and the shuffle passes -/

theorem length_swapL (l : List α) (i j : Nat) : (swapL l i j).length = l.length := by
  unfold swapL
  rcases h1 : l[i]? with _ | a <;> rcases h2 : l[j]? with _ | b <;> simp

theorem set_getElem?_self : ∀ (l : List α) (i : Nat) (a : α), l[i]? = some a → l.set i a = l := by
  intro l
  induction l with
  | nil => intro i a h; simp at h
  | cons x xs ih =>
    intro i a h
    cases i with
    | zero => simp at h; simp [h]
    | succ n =>
      simp only [List.getElem?_cons_succ] at h
      simp [List.set_cons_succ, ih n a h]

theorem swapL_self (l : List α) (i : Nat) : swapL l i i = l := by
  unfold swapL
  rcases h : l[i]? with _ | a
  · rfl
  · simp only [h]
    rw [List.set_set, set_getElem?_self l i a h]

theorem swapL_comm (l : List α) (i j : Nat) : swapL l i j = swapL l j i := by
  by_cases hij : i = j
  · subst hij; rfl
  · unfold swapL
    rcases h1 : l[i]? with _ | a <;> rcases h2 : l[j]? with _ | b <;> simp only []
    rw [List.set_comm _ _ _ hij]

theorem swapL_swapL (l : List α) (i j : Nat) (hi : i < l.length) (hj : j < l.length) :
    swapL (swapL l i j) i j = l := by
  by_cases hij : i = j
  · subst hij; rw [swapL_self, swapL_self]
  · have h1 : l[i]? = some l[i] := List.getElem?_eq_getElem hi
    have h2 : l[j]? = some l[j] := List.getElem?_eq_getElem hj
    unfold swapL
    simp only [h1, h2]
    have h1' : ((l.set i l[j]).set j l[i])[i]? = some l[j] := by
      rw [List.getElem?_set_ne (by omega), List.getElem?_set_self hi]
    have h2' : ((l.set i l[j]).set j l[i])[j]? = some l[i] := by
      rw [List.getElem?_set_self (by simpa using hj)]
    simp only [h1', h2']
    apply List.ext_getElem?
    intro n
    by_cases hni : n = i
    · subst hni
      rw [List.getElem?_set_ne (by omega : j ≠ n), List.getElem?_set_self
          (by simpa using hi), h1]
    · by_cases hnj : n = j
      · subst hnj
        rw [List.getElem?_set_self (by simpa using hj), h2]
      · rw [List.getElem?_set_ne (fun h => hnj h.symm), List.getElem?_set_ne
          (fun h => hni h.symm), List.getElem?_set_ne (fun h => hnj h.symm),
          List.getElem?_set_ne (fun h => hni h.symm)]

theorem mem_swapL {l : List α} {i j : Nat} {x : α} (h : x ∈ swapL l i j) : x ∈ l := by
  unfold swapL at h
  rcases h1 : l[i]? with _ | a <;> rcases h2 : l[j]? with _ | b <;> rw [h1, h2] at h
  · exact h
  · exact h
  · exact h
  · rcases List.mem_or_eq_of_mem_set h with h' | rfl
    · rcases List.mem_or_eq_of_mem_set h' with h'' | rfl
      · exact h''
      · exact List.getElem?_mem h2
    · exact List.getElem?_mem h1

/-- One round of swaps (`foldl` over a list of loop indices), as performed by
both directions of `performShuffle` with swap target `t i`. -/
theorem length_foldl_swap (t : Nat → Nat) :
    ∀ (is_ : List Nat) (arr : List α),
      (is_.foldl (fun a i => swapL a i (t i)) arr).length = arr.length := by
  intro is_
  induction is_ with
  | nil => intro arr; rfl
  | cons i is_ ih =>
    intro arr
    simp only [List.foldl_cons]
    rw [ih, length_swapL]

/-- Replaying a sequence of in-bounds transpositions in reverse list order
undoes it. -/
theorem foldl_swap_reverse (t : Nat → Nat) (ht : ∀ i, t i ≤ i) :
    ∀ (is_ : List Nat) (arr : List α), (∀ i ∈ is_, i < arr.length) →
      is_.foldl (fun a i => swapL a i (t i)) (is_.reverse.foldl (fun a i => swapL a i (t i)) arr)
        = arr := by
  intro is_
  induction is_ with
  | nil => intro arr _; rfl
  | cons i is_ ih =>
    intro arr hmem
    simp only [List.reverse_cons, List.foldl_append, List.foldl_cons, List.foldl_nil]
    have hlen : (is_.reverse.foldl (fun a i => swapL a i (t i)) arr).length = arr.length :=
      length_foldl_swap t _ _
    rw [swapL_swapL _ _ _ (by rw [hlen]; exact hmem i (by simp))
      (by rw [hlen]; exact lt_of_le_of_lt (ht i) (hmem i (by simp)))]
    exact ih arr (fun j hj => hmem j (by simp [hj]))

/-- The reverse pass of `performShuffle` is the exact inverse of the forward
pass (same key, same captured length). -/
theorem performShuffle_reverse_forward (key : String) (arr : List α) :
    performShuffle arr.length key true (performShuffle arr.length key false arr) = arr := by
  unfold performShuffle
  simp only [if_true, if_false, Bool.false_eq_true]
  rcases hn : arr.length with _ | m
  · simp [List.range_eq_range', hn, List.range']
  · have hrange : List.range (m + 1) = 0 :: List.range' 1 m := by
      rw [List.range_eq_range', List.range'_succ]
    have hstep0 : ∀ b : List α, swapL b (getRnd key (0 + 1)) 0 = b := by
      intro b
      rw [getRnd_one, swapL_self]
    simp only [Nat.add_sub_cancel, hrange, List.foldl_cons, hstep0]
    have hcomm : ∀ (b : List α) (i : Nat), swapL b (getRnd key (i + 1)) i
        = swapL b i (getRnd key (i + 1)) := fun b i => swapL_comm b _ _
    have hfold : ∀ (l : List Nat) (b : List α),
        l.foldl (fun a i => swapL a (getRnd key (i + 1)) i) b
          = l.foldl (fun a i => swapL a i (getRnd key (i + 1))) b := by
      intro l
      induction l with
      | nil => intro b; rfl
      | cons j l ih => intro b; simp only [List.foldl_cons, hcomm, ih]
    rw [hfold]
    exact foldl_swap_reverse (fun i => getRnd key (i + 1)) (getRnd_le key)
      (List.range' 1 m) arr
      (fun i hi => by
        obtain ⟨k, hk, rfl⟩ := List.mem_range'.mp hi
        omega)

theorem length_foldl_swap2 (f g : Nat → Nat) :
    ∀ (is_ : List Nat) (arr : List α),
      (is_.foldl (fun a i => swapL a (f i) (g i)) arr).length = arr.length := by
  intro is_
  induction is_ with
  | nil => intro arr; rfl
  | cons i is_ ih =>
    intro arr
    simp only [List.foldl_cons]
    rw [ih, length_swapL]

theorem length_performShuffle (len : Nat) (key : String) (r : Bool) (arr : List α) :
    (performShuffle len key r arr).length = arr.length := by
  unfold performShuffle
  rcases r with _ | _
  · simp only [Bool.false_eq_true, if_false]
    exact length_foldl_swap2 (fun i => i) (fun i => getRnd key (i + 1)) _ arr
  · simp only [if_true]
    exact length_foldl_swap2 (fun i => getRnd key (i + 1)) (fun i => i) _ arr

/-- Unfolding equation for `shuffleArray` in encrypt direction. -/
theorem shuffleArray_false_eq (arr : List α) (seedKey : String) :
    shuffleArray arr seedKey false
      = if seedKey.length ≠ 0 then
          performShuffle arr.length seedKey false
            (performShuffle arr.length DEFAULT_KEY false arr.reverse)
        else performShuffle arr.length DEFAULT_KEY false arr.reverse := rfl

/-- Unfolding equation for `shuffleArray` in decrypt direction. -/
theorem shuffleArray_true_eq (arr : List α) (seedKey : String) :
    shuffleArray arr seedKey true
      = (performShuffle arr.length DEFAULT_KEY true
          (if seedKey.length ≠ 0 then performShuffle arr.length seedKey true arr
           else arr)).reverse := rfl

theorem length_shuffleArray (arr : List α) (seedKey : String) (d : Bool) :
    (shuffleArray arr seedKey d).length = arr.length := by
  rcases d with _ | _
  · rw [shuffleArray_false_eq]
    split
    · rw [length_performShuffle, length_performShuffle, List.length_reverse]
    · rw [length_performShuffle, List.length_reverse]
  · rw [shuffleArray_true_eq, List.length_reverse, length_performShuffle]
    split
    · rw [length_performShuffle]
    · rfl

/-- `shuffleArray` in decrypt direction undoes `shuffleArray` in encrypt
direction, for every key (including the empty key). -/
theorem shuffleArray_roundtrip (arr : List α) (seedKey : String) :
    shuffleArray (shuffleArray arr seedKey false) seedKey true = arr := by
  rw [shuffleArray_true_eq, length_shuffleArray, shuffleArray_false_eq]
  have l1 : (performShuffle arr.length DEFAULT_KEY false arr.reverse).length
      = arr.length := by
    rw [length_performShuffle, List.length_reverse]
  have e2 : performShuffle arr.length DEFAULT_KEY true
      (performShuffle arr.length DEFAULT_KEY false arr.reverse) = arr.reverse := by
    have := performShuffle_reverse_forward DEFAULT_KEY arr.reverse
    rwa [List.length_reverse] at this
  by_cases hk : seedKey.length ≠ 0
  · rw [if_pos hk, if_pos hk]
    have e1 : performShuffle arr.length seedKey true
        (performShuffle arr.length seedKey false
          (performShuffle arr.length DEFAULT_KEY false arr.reverse))
        = performShuffle arr.length DEFAULT_KEY false arr.reverse := by
      have := performShuffle_reverse_forward seedKey
        (performShuffle arr.length DEFAULT_KEY false arr.reverse)
      rwa [l1] at this
    rw [e1, e2, List.reverse_reverse]
  · rw [if_neg hk, if_neg hk, e2, List.reverse_reverse]

/-! ### Tile extraction and repainting -/

theorem foldl_flatMap {α β γ : Type _} (g : α → List β) (f : γ → β → γ) :
    ∀ (l : List α) (init : γ),
      (l.flatMap g).foldl f init = l.foldl (fun acc a => (g a).foldl f acc) init := by
  intro l
  induction l with
  | nil => intro init; rfl
  | cons a l ih =>
    intro init
    simp only [List.flatMap_cons, List.foldl_append, List.foldl_cons, ih]

theorem paintBlocks_eq_foldl {α : Type} [Inhabited α] (base : Nat → Nat → α)
    (blocks : List (Nat → Nat → α)) (level bW bH : Nat) :
    paintBlocks base blocks level bW bH
      = (gridPairs level).foldl (fun acc xy =>
          if xy.2 * level + xy.1 < blocks.length then
            putImageData acc (blocks.getD (xy.2 * level + xy.1) (fun _ _ => default))
              (xy.1 * bW) (xy.2 * bH) bW bH
          else acc) base := by
  unfold paintBlocks gridPairs
  rw [foldl_flatMap]
  congr 1
  funext acc y
  rw [List.foldl_map]

theorem mem_gridPairs {n : Nat} {p : Nat × Nat} :
    p ∈ gridPairs n ↔ p.1 < n ∧ p.2 < n := by
  obtain ⟨x, y⟩ := p
  unfold gridPairs
  simp only [List.mem_flatMap, List.mem_map, List.mem_range, Prod.mk.injEq]
  constructor
  · rintro ⟨y', hy', x', hx', rfl, rfl⟩
    exact ⟨hx', hy'⟩
  · rintro ⟨hx, hy⟩
    exact ⟨y, hy, x, hx, rfl, rfl⟩

/-- Value of the repainted canvas inside the tile region of grid cell
`(X, Y)`: the painted regions of distinct grid cells are disjoint, so a point
interior to cell `(X, Y)` holds that cell's tile value as soon as `(X, Y)`
occurs in the paint list. -/
theorem paint_eval {α : Type} [Inhabited α] (blocks : List (Nat → Nat → α))
    (level bW bH X Y i j : Nat) (hi : i < bW) (hj : j < bH)
    (hguard : Y * level + X < blocks.length) :
    ∀ (gps : List (Nat × Nat)) (base : Nat → Nat → α),
      ((gps.foldl (fun acc xy =>
          if xy.2 * level + xy.1 < blocks.length then
            putImageData acc (blocks.getD (xy.2 * level + xy.1) (fun _ _ => default))
              (xy.1 * bW) (xy.2 * bH) bW bH
          else acc) base) (X * bW + i) (Y * bH + j))
        = if (X, Y) ∈ gps then blocks.getD (Y * level + X) (fun _ _ => default) i j
          else base (X * bW + i) (Y * bH + j) := by
  intro gps
  induction gps with
  | nil => intro base; simp
  | cons p rest ih =>
    intro base
    simp only [List.foldl_cons]
    rw [ih]
    by_cases hmem : (X, Y) ∈ rest
    · rw [if_pos hmem, if_pos (List.mem_cons_of_mem p hmem)]
    · rw [if_neg hmem]
      by_cases hp : p = (X, Y)
      · subst hp
        rw [if_pos (List.mem_cons_self _ _)]
        simp only [if_pos hguard]
        unfold putImageData
        rw [if_pos ⟨Nat.le_add_right _ _, by omega, Nat.le_add_right _ _, by omega⟩,
          Nat.add_sub_cancel_left, Nat.add_sub_cancel_left]
      · have hnotmem : ¬((X, Y) ∈ p :: rest) := by
          intro hmem'
          rcases List.mem_cons.mp hmem' with h | h
          · exact hp h.symm
          · exact hmem h
        rw [if_neg hnotmem]
        obtain ⟨x, y⟩ := p
        split
        · unfold putImageData
          rw [if_neg ?hmiss]
          case hmiss =>
            rintro ⟨ha, hb, hc, hd⟩
            have hx : x = X := by
              rcases Nat.lt_trichotomy x X with h | h | h
              · have h2 : x * bW + bW ≤ X * bW := by
                  have h3 := Nat.mul_le_mul_right bW h
                  rwa [Nat.succ_mul] at h3
                exact absurd (Nat.lt_of_lt_of_le hb
                  (h2.trans (Nat.le_add_right _ _))) (Nat.lt_irrefl _)
              · exact h
              · have h2 : X * bW + bW ≤ x * bW := by
                  have h3 := Nat.mul_le_mul_right bW h
                  rwa [Nat.succ_mul] at h3
                exact absurd (Nat.lt_of_lt_of_le
                  (Nat.lt_of_lt_of_le (Nat.add_lt_add_left hi _) h2) ha) (Nat.lt_irrefl _)
            have hy : y = Y := by
              rcases Nat.lt_trichotomy y Y with h | h | h
              · have h2 : y * bH + bH ≤ Y * bH := by
                  have h3 := Nat.mul_le_mul_right bH h
                  rwa [Nat.succ_mul] at h3
                exact absurd (Nat.lt_of_lt_of_le hd
                  (h2.trans (Nat.le_add_right _ _))) (Nat.lt_irrefl _)
              · exact h
              · have h2 : Y * bH + bH ≤ y * bH := by
                  have h3 := Nat.mul_le_mul_right bH h
                  rwa [Nat.succ_mul] at h3
                exact absurd (Nat.lt_of_lt_of_le
                  (Nat.lt_of_lt_of_le (Nat.add_lt_add_left hj _) h2) hc) (Nat.lt_irrefl _)
            exact hp (by rw [hx, hy])
        · rfl

theorem length_flatMap_uniform {β : Type _} (g : Nat → List β) (k : Nat)
    (h : ∀ y, (g y).length = k) :
    ∀ ys : List Nat, (ys.flatMap g).length = ys.length * k := by
  intro ys
  induction ys with
  | nil => simp
  | cons y ys ih =>
    rw [List.flatMap_cons, List.length_append, h y, ih, List.length_cons, Nat.succ_mul,
      Nat.add_comm]

theorem length_extractBlocks {α : Type} [Inhabited α] (c : Nat → Nat → α)
    (level bW bH : Nat) : (extractBlocks c level bW bH).length = level * level := by
  unfold extractBlocks
  rw [length_flatMap_uniform _ level (fun y => by rw [List.length_map, List.length_range]),
    List.length_range]

theorem getElem?_flatMap_uniform {β : Type _} (g : Nat → List β) (k : Nat)
    (h : ∀ y, (g y).length = k) :
    ∀ (ys : List Nat) (q r : Nat), r < k → q < ys.length →
      (ys.flatMap g)[q * k + r]? = (g (ys.getD q 0))[r]? := by
  intro ys
  induction ys with
  | nil =>
    intro q r _ hq
    simp at hq
  | cons y ys ih =>
    intro q r hr hq
    rw [List.flatMap_cons]
    cases q with
    | zero =>
      rw [Nat.zero_mul, Nat.zero_add, List.getElem?_append_left (by rw [h y]; exact hr)]
      rfl
    | succ q' =>
      have hidx : (q' + 1) * k + r = (g y).length + (q' * k + r) := by
        rw [h y]
        ring
      rw [hidx, List.getElem?_append_right (Nat.le_add_right _ _), Nat.add_sub_cancel_left]
      have hq' : q' < ys.length := by
        simpa using Nat.lt_of_succ_lt_succ hq
      rw [ih q' r hr hq']
      rfl

theorem getElem?_extractBlocks {α : Type} [Inhabited α] (c : Nat → Nat → α)
    (level bW bH X Y : Nat) (hX : X < level) (hY : Y < level) :
    (extractBlocks c level bW bH)[Y * level + X]?
      = some (getImageData c (X * bW) (Y * bH) bW bH) := by
  unfold extractBlocks
  rw [getElem?_flatMap_uniform _ level
    (fun y => by rw [List.length_map, List.length_range]) (List.range level) Y X hX
    (by rwa [List.length_range]), List.getElem?_map, List.getElem?_range hX]
  have hgd : (List.range level).getD Y 0 = Y := by
    rw [List.getD_eq_getElem?_getD, List.getElem?_range hY]
    rfl
  rw [hgd]
  rfl

theorem extractBlocks_clipped {α : Type} [Inhabited α] (c : Nat → Nat → α)
    (level bW bH : Nat) :
    ∀ t ∈ extractBlocks c level bW bH, ∀ i j, ¬(i < bW ∧ j < bH) → t i j = default := by
  intro t ht i j hij
  simp only [extractBlocks, List.mem_flatMap, List.mem_map, List.mem_range] at ht
  obtain ⟨y, _, x, _, rfl⟩ := ht
  unfold getImageData
  rw [if_neg hij]

theorem mem_of_mem_foldl_swap2 (f g : Nat → Nat) :
    ∀ (is_ : List Nat) (arr : List α) (x : α),
      x ∈ is_.foldl (fun a i => swapL a (f i) (g i)) arr → x ∈ arr := by
  intro is_
  induction is_ with
  | nil => intro arr x hx; exact hx
  | cons i is_ ih =>
    intro arr x hx
    simp only [List.foldl_cons] at hx
    exact mem_swapL (ih _ x hx)

theorem mem_of_mem_performShuffle {len : Nat} {key : String} {r : Bool} {arr : List α}
    {x : α} (h : x ∈ performShuffle len key r arr) : x ∈ arr := by
  unfold performShuffle at h
  rcases r with _ | _
  · simp only [Bool.false_eq_true, if_false] at h
    exact mem_of_mem_foldl_swap2 (fun i => i) (fun i => getRnd key (i + 1)) _ arr x h
  · simp only [if_true] at h
    exact mem_of_mem_foldl_swap2 (fun i => getRnd key (i + 1)) (fun i => i) _ arr x h

theorem mem_of_mem_shuffleArray {arr : List α} {key : String} {d : Bool} {x : α}
    (h : x ∈ shuffleArray arr key d) : x ∈ arr := by
  rcases d with _ | _
  · rw [shuffleArray_false_eq] at h
    rcases Decidable.em (key.length ≠ 0) with hk | hk
    · rw [if_pos hk] at h
      exact List.mem_reverse.mp
        (mem_of_mem_performShuffle (mem_of_mem_performShuffle h))
    · rw [if_neg hk] at h
      exact List.mem_reverse.mp (mem_of_mem_performShuffle h)
  · rw [shuffleArray_true_eq] at h
    have h1 := mem_of_mem_performShuffle (List.mem_reverse.mp h)
    rcases Decidable.em (key.length ≠ 0) with hk | hk
    · rw [if_pos hk] at h1
      exact mem_of_mem_performShuffle h1
    · rwa [if_neg hk] at h1

/-- Re-extracting tiles after repainting recovers the painted tile list
exactly (all tiles clipped to `bW × bH`, full `level × level` grid painted). -/
theorem extractBlocks_paintBlocks {α : Type} [Inhabited α]
    (blocks : List (Nat → Nat → α)) (base : Nat → Nat → α) (level bW bH : Nat)
    (hlen : blocks.length = level * level)
    (hclip : ∀ t ∈ blocks, ∀ i j, ¬(i < bW ∧ j < bH) → t i j = default) :
    extractBlocks (paintBlocks base blocks level bW bH) level bW bH = blocks := by
  apply List.ext_getElem?
  intro k
  by_cases hk : k < level * level
  · have hlevel : 0 < level := by
      rcases Nat.eq_zero_or_pos level with h | h
      · subst h; simp at hk
      · exact h
    set X := k % level with hXdef
    set Y := k / level with hYdef
    have hX : X < level := Nat.mod_lt _ hlevel
    have hY : Y < level := by
      rw [hYdef, Nat.div_lt_iff_lt_mul hlevel]
      exact hk
    have hkeq : Y * level + X = k := by
      rw [hXdef, hYdef, Nat.mul_comm]
      exact Nat.div_add_mod k level
    have hguard : Y * level + X < blocks.length := by
      rw [hlen, hkeq]
      exact hk
    rw [← hkeq, getElem?_extractBlocks _ level bW bH X Y hX hY]
    have hrhs : blocks[Y * level + X]?
        = some (blocks.getD (Y * level + X) (fun _ _ => default)) := by
      rw [List.getD_eq_getElem?_getD, List.getElem?_eq_getElem hguard]
      rfl
    rw [hrhs]
    congr 1
    funext i j
    unfold getImageData
    by_cases hij : i < bW ∧ j < bH
    · rw [if_pos hij, paintBlocks_eq_foldl,
        paint_eval blocks level bW bH X Y i j hij.1 hij.2 hguard (gridPairs level) base,
        if_pos (mem_gridPairs.mpr ⟨hX, hY⟩)]
    · rw [if_neg hij]
      have hmem : blocks.getD (Y * level + X) (fun _ _ => default) ∈ blocks := by
        rw [List.getD_eq_getElem?_getD, List.getElem?_eq_getElem hguard]
        exact List.getElem_mem _
      exact (hclip _ hmem i j hij).symm
  · have h1 : (extractBlocks (paintBlocks base blocks level bW bH) level bW bH).length ≤ k := by
      rw [length_extractBlocks]
      omega
    have h2 : blocks.length ≤ k := by
      rw [hlen]
      omega
    rw [List.getElem?_eq_none h1, List.getElem?_eq_none h2]

/-! ### Key congruence (keys inducing the same PRNG) -/

theorem getRnd_ac (s : Nat) : getRnd "ac" s = s / 10 := by
  show (charCodeAt "ac" (s % ("ac" : String).length) % ("ac" : String).length * s)
      / 10 ^ decLen (charCodeAt "ac" (s % ("ac" : String).length) % ("ac" : String).length)
      = s / 10
  have hl : ("ac" : String).length = 2 := rfl
  have h : s % ("ac" : String).length = 0 ∨ s % ("ac" : String).length = 1 := by
    rw [hl]
    omega
  rcases h with h | h <;> rw [h]
  · have hc : charCodeAt "ac" 0 % ("ac" : String).length = 1 := rfl
    rw [hc]
    have hd : decLen 1 = 1 := rfl
    rw [hd, pow_one, Nat.one_mul]
  · have hc : charCodeAt "ac" 1 % ("ac" : String).length = 1 := rfl
    rw [hc]
    have hd : decLen 1 = 1 := rfl
    rw [hd, pow_one, Nat.one_mul]

theorem getRnd_ca (s : Nat) : getRnd "ca" s = s / 10 := by
  show (charCodeAt "ca" (s % ("ca" : String).length) % ("ca" : String).length * s)
      / 10 ^ decLen (charCodeAt "ca" (s % ("ca" : String).length) % ("ca" : String).length)
      = s / 10
  have hl : ("ca" : String).length = 2 := rfl
  have h : s % ("ca" : String).length = 0 ∨ s % ("ca" : String).length = 1 := by
    rw [hl]
    omega
  rcases h with h | h <;> rw [h]
  · have hc : charCodeAt "ca" 0 % ("ca" : String).length = 1 := rfl
    rw [hc]
    have hd : decLen 1 = 1 := rfl
    rw [hd, pow_one, Nat.one_mul]
  · have hc : charCodeAt "ca" 1 % ("ca" : String).length = 1 := rfl
    rw [hc]
    have hd : decLen 1 = 1 := rfl
    rw [hd, pow_one, Nat.one_mul]

theorem getRnd_ac_eq_ca : getRnd "ac" = getRnd "ca" :=
  funext fun s => (getRnd_ac s).trans (getRnd_ca s).symm

theorem performShuffle_congr_key {k1 k2 : String} (hg : getRnd k1 = getRnd k2)
    (len : Nat) (r : Bool) (arr : List α) :
    performShuffle len k1 r arr = performShuffle len k2 r arr := by
  unfold performShuffle
  rw [hg]

theorem shuffleArray_congr_key {k1 k2 : String} (hg : getRnd k1 = getRnd k2)
    (hl : k1.length = k2.length) (arr : List α) (d : Bool) :
    shuffleArray arr k1 d = shuffleArray arr k2 d := by
  have hperf : ∀ (len : Nat) (r : Bool) (b : List α),
      performShuffle len k1 r b = performShuffle len k2 r b :=
    fun len r b => performShuffle_congr_key hg len r b
  rcases d with _ | _
  · rw [shuffleArray_false_eq, shuffleArray_false_eq, hl, hperf]
  · rw [shuffleArray_true_eq, shuffleArray_true_eq, hl, hperf]

theorem blockProcess_congr_key {α : Type} [Inhabited α] {k1 k2 : String}
    (hg : getRnd k1 = getRnd k2) (hl : k1.length = k2.length)
    (c : Nat → Nat → α) (width height level : Nat) (d : Bool) :
    blockProcess c width height level k1 d = blockProcess c width height level k2 d := by
  simp only [blockProcess]
  rw [shuffleArray_congr_key hg hl]

/-! ### Claim theorems: keyed block shuffler -/

/-- C4: for every array and every non-empty key, one reverse pass of
`performShuffle` (ascending `i`, swapping `array[target]`/`array[i]`) is the
exact inverse of one forward pass (descending `i`, swapping
`array[i]`/`array[target]`): forward followed by reverse returns every
element to its original position. -/
theorem C4_performShuffle_inverse {α : Type} (arr : List α) (key : String)
    (hkey : key ≠ "") :
    performShuffle arr.length key true (performShuffle arr.length key false arr) = arr :=
  performShuffle_reverse_forward key arr

theorem C4_witness :
    ("ab" : String) ≠ "" ∧
      performShuffle ([3, 1, 4, 1, 5, 9, 2, 6] : List Nat).length "ab" true
          (performShuffle ([3, 1, 4, 1, 5, 9, 2, 6] : List Nat).length "ab" false
            [3, 1, 4, 1, 5, 9, 2, 6])
        = [3, 1, 4, 1, 5, 9, 2, 6] :=
  ⟨by decide, C4_performShuffle_inverse [3, 1, 4, 1, 5, 9, 2, 6] "ab" (by decide)⟩

/-- C6 counterexample: under the source's IEEE-754 binary64 semantics the
PRNG does not always equal the spec's exact decimal-fraction formula.  With
a 30-character key holding 'Y' (code 89) at index 10 and seed 100, the code
computes `index2 = 89 % 30 = 29` and `Math.floor(double(0.29) * 100)`;
`double(0.29) = 5224175567749775 / 2^54` lies just below `29/100`, the
product rounds to `8162774324609023 / 2^48 < 29`, and the floor is 28 —
while the exact formula `⌊29 * 100 / 10^2⌋` gives 29. -/
theorem C6_counterexample :
    getRndFloat "aaaaaaaaaaYaaaaaaaaaaaaaaaaaaa" 100 = 28 ∧
    rndSpec "aaaaaaaaaaYaaaaaaaaaaaaaaaaaaa" 100 = 29 ∧
    getRnd "aaaaaaaaaaYaaaaaaaaaaaaaaaaaaa" 100 = 29 := by
  refine ⟨by decide, ?_, by decide⟩
  rw [← getRnd_eq_rndSpec]
  decide

/-- C6 (amended): `getRnd(key, seed)` is a pure function of `(key, seed)` —
identical inputs always yield the identical integer — and under exact
rational evaluation of `parseFloat('0.' + index2) * seed` (no binary64
rounding) it equals the spec's reference decimal-fraction formula
(`rndSpec`) for every non-empty key and every seed.  Under the source's
IEEE-754 semantics the equality can fail: see `C6_counterexample`. -/
theorem C6_getRnd_matches_spec (key : String) (hkey : key ≠ "") (seed : Nat) :
    getRnd key seed = rndSpec key seed ∧
      ∀ key2 seed2, key2 = key → seed2 = seed → getRnd key2 seed2 = getRnd key seed := by
  refine ⟨getRnd_eq_rndSpec key seed, ?_⟩
  rintro key2 seed2 rfl rfl
  rfl

theorem C6_witness :
    ("hadsky.com" : String) ≠ "" ∧
      (getRnd "hadsky.com" 9 = rndSpec "hadsky.com" 9 ∧
        ∀ key2 seed2, key2 = "hadsky.com" → seed2 = 9 →
          getRnd key2 seed2 = getRnd "hadsky.com" 9) :=
  ⟨by decide, C6_getRnd_matches_spec "hadsky.com" (by decide) 9⟩

/-- C8: for every non-empty key and seed ≥ 1, `getRnd(key, seed)` lies in
`[0, seed - 1]`; hence every swap target `getRnd(key, i+1)` computed inside
`performShuffle` satisfies `target ≤ i`, and all indices accessed by either
pass are below the array length. -/
theorem C8_getRnd_in_bounds (key : String) (hkey : key ≠ "") :
    (∀ seed, 1 ≤ seed → getRnd key seed ≤ seed - 1) ∧
      (∀ i : Nat, getRnd key (i + 1) ≤ i) ∧
      (∀ len i : Nat, i < len → i < len ∧ getRnd key (i + 1) < len) := by
  refine ⟨fun seed hs => ?_, fun i => getRnd_le key i, fun len i hi => ?_⟩
  · have := getRnd_lt key seed hs
    omega
  · exact ⟨hi, Nat.lt_of_le_of_lt (getRnd_le key i) hi⟩

theorem C8_witness :
    ("k" : String) ≠ "" ∧
      ((∀ seed, 1 ≤ seed → getRnd "k" seed ≤ seed - 1) ∧
        (∀ i : Nat, getRnd "k" (i + 1) ≤ i) ∧
        (∀ len i : Nat, i < len → i < len ∧ getRnd "k" (i + 1) < len)) :=
  ⟨by decide, C8_getRnd_in_bounds "k" (by decide)⟩

/-- C7: `BlockShuffleAlgo.process` raises its explicit error exactly when
`floor(width/level) = 0` or `floor(height/level) = 0`, and in that case the
canvas is returned untouched (the throw happens before any mutation); for
all inputs with nonzero block dimensions it completes without error. -/
theorem C7_blockProcess_error {α : Type} [Inhabited α] (c : Nat → Nat → α)
    (width height level : Nat) (key : String) (d : Bool) :
    ((blockProcess c width height level key d).2.isSome
        ↔ (width / level = 0 ∨ height / level = 0)) ∧
      ((width / level = 0 ∨ height / level = 0) →
        (blockProcess c width height level key d).1 = c) := by
  by_cases h : width / level = 0 ∨ height / level = 0
  · have heq : blockProcess c width height level key d
        = (c, some "图片尺寸太小或混淆等级太高") := by
      simp only [blockProcess]
      rw [if_pos h]
    rw [heq]
    exact ⟨⟨fun _ => h, fun _ => rfl⟩, fun _ => rfl⟩
  · have heq : (blockProcess c width height level key d).2 = none := by
      simp only [blockProcess]
      rw [if_neg h]
    constructor
    · rw [heq]
      exact ⟨fun hfalse => by simp at hfalse, fun hor => absurd hor h⟩
    · intro hor
      exact absurd hor h

theorem C7_witness :
    ((blockProcess (fun _ _ => (0 : Nat)) 10 10 20 "" false).2.isSome
        ↔ (10 / 20 = 0 ∨ 10 / 20 = 0)) ∧
      ((10 / 20 = 0 ∨ 10 / 20 = 0) →
        (blockProcess (fun _ _ => (0 : Nat)) 10 10 20 "" false).1 = fun _ _ => (0 : Nat)) :=
  C7_blockProcess_error (fun _ _ => (0 : Nat)) 10 10 20 "" false

/-- C2: for dimensions exactly divisible by `level ≥ 2` and any key (including
the empty string), a `BlockShuffleAlgo.process` encrypt followed by a decrypt
with the same parameters raises no error and restores every pixel of the
covered region (here the whole canvas). -/
theorem C2_blockShuffle_roundtrip {α : Type} [Inhabited α] (c : Nat → Nat → α)
    (width height level : Nat) (key : String)
    (hlev : 2 ≤ level) (hdw : level ∣ width) (hdh : level ∣ height)
    (hw : 1 ≤ width) (hh : 1 ≤ height) :
    (blockProcess c width height level key false).2 = none ∧
      (blockProcess (blockProcess c width height level key false).1
          width height level key true).2 = none ∧
      ∀ px py, px < width → py < height →
        (blockProcess (blockProcess c width height level key false).1
            width height level key true).1 px py = c px py := by
  have hWeq : level * (width / level) = width := Nat.mul_div_cancel' hdw
  have hHeq : level * (height / level) = height := Nat.mul_div_cancel' hdh
  set bW := width / level with hbWdef
  set bH := height / level with hbHdef
  have hbW : 0 < bW := by
    rcases Nat.eq_zero_or_pos bW with h | h
    · rw [h, Nat.mul_zero] at hWeq
      omega
    · exact h
  have hbH : 0 < bH := by
    rcases Nat.eq_zero_or_pos bH with h | h
    · rw [h, Nat.mul_zero] at hHeq
      omega
    · exact h
  have hne : ¬(bW = 0 ∨ bH = 0) := by omega
  set shuffled := shuffleArray (extractBlocks c level bW bH) key false with hsh
  have henc : blockProcess c width height level key false
      = (paintBlocks (clearRect c width height) shuffled level bW bH, none) := by
    simp only [blockProcess]
    rw [if_neg hne]
  set e1 := paintBlocks (clearRect c width height) shuffled level bW bH with he1
  have hlensh : shuffled.length = level * level := by
    rw [hsh, length_shuffleArray, length_extractBlocks]
  have hclipsh : ∀ t ∈ shuffled, ∀ i j, ¬(i < bW ∧ j < bH) → t i j = default :=
    fun t ht i j hij =>
      extractBlocks_clipped c level bW bH t (mem_of_mem_shuffleArray ht) i j hij
  have hext : extractBlocks e1 level bW bH = shuffled :=
    extractBlocks_paintBlocks shuffled (clearRect c width height) level bW bH hlensh hclipsh
  have hdec : blockProcess e1 width height level key true
      = (paintBlocks (clearRect e1 width height)
          (extractBlocks c level bW bH) level bW bH, none) := by
    simp only [blockProcess]
    rw [if_neg hne, hext, hsh, shuffleArray_roundtrip]
  refine ⟨by rw [henc], ?_, ?_⟩
  · rw [henc]
    simp only []
    rw [hdec]
  · intro px py hpx hpy
    rw [henc]
    simp only []
    rw [hdec]
    simp only []
    set X := px / bW with hXdef
    set Y := py / bH with hYdef
    set i := px % bW with hidef
    set j := py % bH with hjdef
    have hX : X < level := by
      rw [hXdef, Nat.div_lt_iff_lt_mul hbW]
      rw [← hWeq] at hpx
      exact hpx
    have hY : Y < level := by
      rw [hYdef, Nat.div_lt_iff_lt_mul hbH]
      rw [← hHeq] at hpy
      exact hpy
    have hi : i < bW := Nat.mod_lt _ hbW
    have hj : j < bH := Nat.mod_lt _ hbH
    have hpx' : X * bW + i = px := by
      rw [hXdef, hidef, Nat.mul_comm]
      exact Nat.div_add_mod px bW
    have hpy' : Y * bH + j = py := by
      rw [hYdef, hjdef, Nat.mul_comm]
      exact Nat.div_add_mod py bH
    have hguard : Y * level + X < (extractBlocks c level bW bH).length := by
      rw [length_extractBlocks]
      have h1 : (Y + 1) * level ≤ level * level := by
        rw [Nat.mul_comm level level]
        exact Nat.mul_le_mul_right level hY
      rw [Nat.succ_mul] at h1
      omega
    rw [← hpx', ← hpy', paintBlocks_eq_foldl,
      paint_eval (extractBlocks c level bW bH) level bW bH X Y i j hi hj hguard
        (gridPairs level) (clearRect e1 width height),
      if_pos (mem_gridPairs.mpr ⟨hX, hY⟩)]
    have hgd : (extractBlocks c level bW bH).getD (Y * level + X) (fun _ _ => default)
        = getImageData c (X * bW) (Y * bH) bW bH := by
      rw [List.getD_eq_getElem?_getD, getElem?_extractBlocks c level bW bH X Y hX hY]
      rfl
    rw [hgd]
    unfold getImageData
    rw [if_pos ⟨hi, hj⟩]

/-- C10 counterexample: "ac" and "ca" are two different non-empty keys, yet
encrypting the same (non-constant) buffer at level 3 with either key yields
the very same result — the two keys induce identical PRNG outputs for every
seed, hence identical tile arrangements.  This refutes the claim that two
different non-empty keys always produce different encrypted outputs. -/
theorem C10_counterexample :
    ("ac" : String) ≠ "ca" ∧ ("ac" : String) ≠ "" ∧ ("ca" : String) ≠ "" ∧
      blockProcess (fun x y => 9 * y + x : Nat → Nat → Nat) 9 9 3 "ac" false
        = blockProcess (fun x y => 9 * y + x : Nat → Nat → Nat) 9 9 3 "ca" false :=
  ⟨by decide, by decide, by decide,
    blockProcess_congr_key getRnd_ac_eq_ca rfl _ 9 9 3 false⟩

/-- C10 amended: different non-empty keys *can* produce different tile
arrangements (witnessed concretely at level 3), but not for every pair of
distinct keys and every buffer. -/
theorem C10_amended_key_sensitivity :
    ∃ (c : Nat → Nat → Nat) (k1 k2 : String), k1 ≠ k2 ∧ k1 ≠ "" ∧ k2 ≠ "" ∧
      ∃ px py : Nat, px < 9 ∧ py < 9 ∧
        (blockProcess c 9 9 3 k1 false).1 px py
          ≠ (blockProcess c 9 9 3 k2 false).1 px py :=
  ⟨fun x y => 9 * y + x, "q", "zzzzzzzzz", by decide, by decide, by decide,
    0, 0, by decide, by decide, by decide⟩

theorem C2_witness :
    (2 ≤ 2 ∧ (2 : Nat) ∣ 4 ∧ (2 : Nat) ∣ 6 ∧ 1 ≤ 4 ∧ 1 ≤ 6) ∧
      ((blockProcess (fun x y => 10 * y + x : Nat → Nat → Nat) 4 6 2 "k" false).2 = none ∧
        (blockProcess (blockProcess (fun x y => 10 * y + x : Nat → Nat → Nat)
            4 6 2 "k" false).1 4 6 2 "k" true).2 = none ∧
        ∀ px py, px < 4 → py < 6 →
          (blockProcess (blockProcess (fun x y => 10 * y + x : Nat → Nat → Nat)
              4 6 2 "k" false).1 4 6 2 "k" true).1 px py = 10 * py + px) :=
  ⟨by decide, C2_blockShuffle_roundtrip (fun x y => 10 * y + x) 4 6 2 "k"
    (by decide) (by decide) (by decide) (by decide) (by decide)⟩

/-! ### Rectangle enumeration lemmas -/

theorem flatMap_singleton_map {α β : Type _} (f : α → β) :
    ∀ l : List α, (l.flatMap fun a => [f a]) = l.map f := by
  intro l
  induction l with
  | nil => rfl
  | cons a l ih => simp [List.flatMap_cons, ih]

theorem flatMap_congr_left {α β : Type _} {f g : α → List β} :
    ∀ {l : List α}, (∀ a ∈ l, f a = g a) → l.flatMap f = l.flatMap g := by
  intro l
  induction l with
  | nil => intro _; rfl
  | cons a l ih =>
    intro h
    rw [List.flatMap_cons, List.flatMap_cons, h a (by simp),
      ih (fun b hb => h b (by simp [hb]))]

theorem flatMap_nil_fun {α β : Type _} :
    ∀ l : List α, (l.flatMap fun _ => ([] : List β)) = [] := by
  intro l
  induction l with
  | nil => rfl
  | cons a l ih => simpa using ih

theorem range_map_sub_rev (n : Nat) :
    (List.range n).map (fun i => n - 1 - i) = (List.range n).reverse := by
  apply List.ext_getElem
  · rw [List.length_map, List.length_reverse]
  · intro k h1 h2
    rw [List.getElem_map, List.getElem_range, List.getElem_reverse, List.getElem_range,
      List.length_range]

theorem rectList_h1 (x y dax day dbx dby : Int) (w : Nat) :
    rectList x y dax day dbx dby w 1
      = (List.range w).map (fun (i : Nat) => (x + (i : Int) * dax, y + (i : Int) * day)) := by
  unfold rectList
  have hrow : ∀ i : Nat,
      (List.range 1).map (fun j : Nat =>
        (x + (i : Int) * dax + (j : Int) * dbx, y + (i : Int) * day + (j : Int) * dby))
      = [(x + (i : Int) * dax, y + (i : Int) * day)] := by
    intro i
    show [(x + (i : Int) * dax + ((0 : Nat) : Int) * dbx,
      y + (i : Int) * day + ((0 : Nat) : Int) * dby)] = _
    norm_num
  rw [flatMap_congr_left (fun i _ => hrow i), flatMap_singleton_map]

theorem rectList_w1 (x y dax day dbx dby : Int) (h : Nat) :
    rectList x y dax day dbx dby 1 h
      = (List.range h).map (fun (j : Nat) => (x + (j : Int) * dbx, y + (j : Int) * dby)) := by
  unfold rectList
  rw [show List.range 1 = [0] from rfl, List.flatMap_cons, List.flatMap_nil,
    List.append_nil]
  apply List.map_congr_left
  intro j _
  show (x + ((0 : Nat) : Int) * dax + (j : Int) * dbx,
    y + ((0 : Nat) : Int) * day + (j : Int) * dby) = _
  norm_num

theorem rectList_split_a (x y dax day dbx dby : Int) (w1 w2 h : Nat) :
    rectList x y dax day dbx dby (w1 + w2) h
      = rectList x y dax day dbx dby w1 h
        ++ rectList (x + w1 * dax) (y + w1 * day) dax day dbx dby w2 h := by
  unfold rectList
  rw [List.range_add, List.flatMap_append, List.flatMap_map]
  congr 1
  apply flatMap_congr_left
  intro i _
  apply List.map_congr_left
  intro j _
  simp only [Prod.mk.injEq]
  constructor <;> (push_cast ; ring)

theorem rectList_split_b (x y dax day dbx dby : Int) (w h1 h2 : Nat) :
    (rectList x y dax day dbx dby w (h1 + h2)).Perm
      (rectList x y dax day dbx dby w h1
        ++ rectList (x + h1 * dbx) (y + h1 * dby) dax day dbx dby w h2) := by
  unfold rectList
  have hrow : ∀ i : Nat,
      (List.range (h1 + h2)).map (fun j : Nat =>
        (x + (i : Int) * dax + (j : Int) * dbx, y + (i : Int) * day + (j : Int) * dby))
      = (List.range h1).map (fun j : Nat =>
          (x + (i : Int) * dax + (j : Int) * dbx, y + (i : Int) * day + (j : Int) * dby))
        ++ (List.range h2).map (fun j : Nat =>
            (x + (h1 : Int) * dbx + (i : Int) * dax + (j : Int) * dbx,
              y + (h1 : Int) * dby + (i : Int) * day + (j : Int) * dby)) := by
    intro i
    rw [List.range_add, List.map_append, List.map_map]
    congr 1
    apply List.map_congr_left
    intro j _
    simp only [Function.comp_apply, Prod.mk.injEq]
    constructor <;> (push_cast ; ring)
  rw [flatMap_congr_left (fun i _ => hrow i)]
  exact (List.flatMap_append_perm _ _ _).symm

theorem rectList_transpose (x y dax day dbx dby : Int) (w h : Nat) :
    (rectList x y dax day dbx dby w h).Perm (rectList x y dbx dby dax day h w) := by
  induction w with
  | zero =>
    unfold rectList
    have hz : ∀ i : Nat, (List.range 0).map (fun j : Nat =>
        (x + (i : Int) * dbx + (j : Int) * dax, y + (i : Int) * dby + (j : Int) * day))
        = ([] : List (Int × Int)) := fun _ => rfl
    rw [flatMap_congr_left (fun i _ => hz i), flatMap_nil_fun]
    exact List.Perm.refl _
  | succ w ih =>
    unfold rectList at ih ⊢
    rw [List.range_succ, List.flatMap_append]
    have hsplit : ∀ i : Nat,
        (List.range w ++ [w]).map (fun j : Nat =>
          (x + (i : Int) * dbx + (j : Int) * dax, y + (i : Int) * dby + (j : Int) * day))
        = (List.range w).map (fun j : Nat =>
            (x + (i : Int) * dbx + (j : Int) * dax, y + (i : Int) * dby + (j : Int) * day))
          ++ [(x + (i : Int) * dbx + (w : Int) * dax, y + (i : Int) * dby + (w : Int) * day)] := by
      intro i
      rw [List.map_append]
      rfl
    rw [flatMap_congr_left (fun i _ => hsplit i)]
    refine List.Perm.trans ?_ (List.flatMap_append_perm _ _ _)
    have hlast : ([w] : List Nat).flatMap (fun i : Nat =>
        (List.range h).map (fun j : Nat =>
          (x + (i : Int) * dax + (j : Int) * dbx, y + (i : Int) * day + (j : Int) * dby)))
        = (List.range h).map (fun j : Nat =>
            (x + (w : Int) * dax + (j : Int) * dbx, y + (w : Int) * day + (j : Int) * dby)) := by
      rw [List.flatMap_cons, List.flatMap_nil, List.append_nil]
    rw [hlast]
    refine List.Perm.append ih ?_
    rw [flatMap_singleton_map (fun (i : Nat) =>
      (x + (i : Int) * dbx + (w : Int) * dax, y + (i : Int) * dby + (w : Int) * day))
      (List.range h)]
    apply List.Perm.of_eq
    apply List.map_congr_left
    intro j _
    simp only [Prod.mk.injEq]
    constructor <;> ring

/-- Flooring halving of a nonzero integer of magnitude at least 2: the result
keeps the sign and its magnitude lies strictly between 0 and the original. -/
theorem fdiv_two_facts (m : Int) (h2 : 2 ≤ m.natAbs) :
    Int.fdiv m 2 = m.sign * (Int.fdiv m 2).natAbs ∧
      1 ≤ (Int.fdiv m 2).natAbs ∧ (Int.fdiv m 2).natAbs < m.natAbs ∧
      (Int.fdiv m 2).natAbs ≤ (m.natAbs + 1) / 2 := by
  rw [Int.fdiv_eq_ediv m (by norm_num : (0 : Int) ≤ 2)]
  rcases Int.lt_trichotomy m 0 with hm | hm | hm
  · rw [Int.sign_eq_neg_one_of_neg hm]
    refine ⟨by omega, by omega, by omega, by omega⟩
  · subst hm
    simp at h2
  · rw [Int.sign_eq_one_of_pos hm]
    refine ⟨by omega, by omega, by omega, by omega⟩

/-- Sign, magnitude and nonvanishing of a unit multiple of a positive natural. -/
theorem sign_unit_mul (s : Int) (u : Nat) (hs : s = 1 ∨ s = -1) (hu : 1 ≤ u) :
    (s * (u : Int)).sign = s ∧ (s * (u : Int)).natAbs = u ∧ s * (u : Int) ≠ 0 := by
  have hupos : (0 : Int) < (u : Int) := by exact_mod_cast hu
  rcases hs with rfl | rfl
  · rw [Int.one_mul]
    exact ⟨Int.sign_eq_one_of_pos hupos, Int.natAbs_ofNat u, by omega⟩
  · have hneg : (-1 : Int) * (u : Int) = -(u : Int) := by ring
    rw [hneg]
    refine ⟨Int.sign_eq_neg_one_of_neg (by omega), ?_, by omega⟩
    rw [Int.natAbs_neg, Int.natAbs_ofNat]

/-- Area bound for the recursive sub-rectangles. -/
theorem area_shrink {a b c d n : Nat} (ha : a ≤ c) (hb : b < d) (hc : 2 ≤ c)
    (h : c * d ≤ n + 1) : a * b ≤ n := by
  have h1 : a * b ≤ c * b := Nat.mul_le_mul_right b ha
  have h2 : c * b + c ≤ c * d := by
    have h3 : c * (b + 1) ≤ c * d := Nat.mul_le_mul_left c hb
    rwa [Nat.mul_succ] at h3
  omega

theorem area_shrink' {a b c d n : Nat} (ha : a < c) (hb : b ≤ d) (hd : 2 ≤ d)
    (h : c * d ≤ n + 1) : a * b ≤ n := by
  have := area_shrink hb ha hd (by rw [Nat.mul_comm] ; exact h)
  rwa [Nat.mul_comm] at this

/-- `generate2d` is symmetric under transposing the two coordinates. -/
theorem generate2d_swap :
    ∀ (fuel : Nat) (x y ax ay bx by_ : Int),
      generate2d fuel x y ax ay bx by_
        = (generate2d fuel y x ay ax by_ bx).map Prod.swap := by
  intro fuel
  induction fuel with
  | zero => intros; rfl
  | succ n ih =>
    intro x y ax ay bx by_
    simp only [generate2d]
    rw [Int.add_comm ay ax, Int.add_comm by_ bx]
    by_cases h1 : (bx + by_).natAbs = 1
    · rw [if_pos h1, if_pos h1, List.map_map]
      rfl
    · rw [if_neg h1, if_neg h1]
      by_cases h2 : (ax + ay).natAbs = 1
      · rw [if_pos h2, if_pos h2, List.map_map]
        rfl
      · rw [if_neg h2, if_neg h2]
        rw [Int.add_comm (Int.fdiv ay 2) (Int.fdiv ax 2),
          Int.add_comm (Int.fdiv by_ 2) (Int.fdiv bx 2)]
        by_cases h3 : 2 * (ax + ay).natAbs > 3 * (bx + by_).natAbs
        · rw [if_pos h3, if_pos h3]
          by_cases h4 : (Int.fdiv ax 2 + Int.fdiv ay 2).natAbs % 2 = 1
              ∧ (ax + ay).natAbs > 2
          · simp only [if_pos h4]
            rw [List.map_append, ← ih, ← ih]
          · simp only [if_neg h4]
            rw [List.map_append, ← ih, ← ih]
        · rw [if_neg h3, if_neg h3]
          by_cases h4 : (Int.fdiv bx 2 + Int.fdiv by_ 2).natAbs % 2 = 1
              ∧ (bx + by_).natAbs > 2
          · simp only [if_pos h4]
            rw [List.map_append, List.map_append, ← ih, ← ih, ← ih]
          · simp only [if_neg h4]
            rw [List.map_append, List.map_append, ← ih, ← ih, ← ih]

theorem rectList_rev (x y dax day dbx dby : Int) (w h : Nat) :
    (rectList x y dax day dbx dby w h).Perm
      (rectList (x + ((w - 1 : Nat) : Int) * dax + ((h - 1 : Nat) : Int) * dbx)
        (y + ((w - 1 : Nat) : Int) * day + ((h - 1 : Nat) : Int) * dby)
        (-dax) (-day) (-dbx) (-dby) w h) := by
  have step1 : ∀ (G : Nat → List (Int × Int)),
      ((List.range w).flatMap fun i => G (w - 1 - i)).Perm ((List.range w).flatMap G) := by
    intro G
    have h1 : ((List.range w).flatMap fun i => G (w - 1 - i))
        = ((List.range w).map (fun i => w - 1 - i)).flatMap G := by
      rw [List.flatMap_map]
    rw [h1, range_map_sub_rev]
    exact List.Perm.flatMap_right G (List.reverse_perm _)
  have step2 : ∀ (F : Nat → Int × Int),
      ((List.range h).map fun j => F (h - 1 - j)).Perm ((List.range h).map F) := by
    intro F
    have h1 : ((List.range h).map fun j => F (h - 1 - j))
        = ((List.range h).map (fun j => h - 1 - j)).map F := by
      rw [List.map_map]
      rfl
    rw [h1, range_map_sub_rev, List.map_reverse]
    exact List.reverse_perm _
  apply List.Perm.symm
  unfold rectList
  have hcongr : (List.range w).flatMap (fun i : Nat => (List.range h).map (fun j : Nat =>
      (x + ((w - 1 : Nat) : Int) * dax + ((h - 1 : Nat) : Int) * dbx + (i : Int) * -dax
          + (j : Int) * -dbx,
        y + ((w - 1 : Nat) : Int) * day + ((h - 1 : Nat) : Int) * dby + (i : Int) * -day
          + (j : Int) * -dby)))
      = (List.range w).flatMap (fun i : Nat => (List.range h).map (fun j : Nat =>
        (x + ((w - 1 - i : Nat) : Int) * dax + ((h - 1 - j : Nat) : Int) * dbx,
          y + ((w - 1 - i : Nat) : Int) * day + ((h - 1 - j : Nat) : Int) * dby))) := by
    apply flatMap_congr_left
    intro i hi
    apply List.map_congr_left
    intro j hj
    have hiw : i < w := List.mem_range.mp hi
    have hjh : j < h := List.mem_range.mp hj
    have hci : ((w - 1 - i : Nat) : Int) = ((w - 1 : Nat) : Int) - (i : Int) := by omega
    have hcj : ((h - 1 - j : Nat) : Int) = ((h - 1 : Nat) : Int) - (j : Int) := by omega
    simp only [Prod.mk.injEq]
    constructor <;> (rw [hci, hcj] ; ring)
  rw [hcongr]
  refine List.Perm.trans (List.Perm.flatMap_left _ (fun i _ => step2
    (fun k : Nat => (x + ((w - 1 - i : Nat) : Int) * dax + (k : Int) * dbx,
      y + ((w - 1 - i : Nat) : Int) * day + (k : Int) * dby)))) ?_
  exact step1 (fun k : Nat => (List.range h).map (fun j : Nat =>
    (x + ((k : Nat) : Int) * dax + (j : Int) * dbx,
      y + ((k : Nat) : Int) * day + (j : Int) * dby)))

theorem rectList_swap_map (x y dax day dbx dby : Int) (w h : Nat) :
    (rectList y x day dax dby dbx w h).map Prod.swap = rectList x y dax day dbx dby w h := by
  unfold rectList
  rw [List.map_flatMap]
  apply flatMap_congr_left
  intro i _
  rw [List.map_map]
  rfl

/-- One unfolding step of the totality invariant, for a horizontal major
axis (`a = (ax, 0)`, `b = (0, by_)`). -/
theorem generate2d_perm_step (n : Nat)
    (IH : ∀ x y ax ay bx by_ : Int, Axis ax ay bx by_ →
      (ax + ay).natAbs * (bx + by_).natAbs ≤ n →
      (generate2d n x y ax ay bx by_).Perm
        (rectList x y ax.sign ay.sign bx.sign by_.sign
          (ax + ay).natAbs (bx + by_).natAbs)) :
    ∀ x y ax by_ : Int, ax ≠ 0 → by_ ≠ 0 →
      ax.natAbs * by_.natAbs ≤ n + 1 →
      (generate2d (n + 1) x y ax 0 0 by_).Perm
        (rectList x y ax.sign 0 0 by_.sign ax.natAbs by_.natAbs) := by
  intro x y ax by_ hax hby harea
  have hw1 : 1 ≤ ax.natAbs := Int.natAbs_pos.mpr hax
  have hh1 : 1 ≤ by_.natAbs := Int.natAbs_pos.mpr hby
  have hsa : ax.sign = 1 ∨ ax.sign = -1 := by
    rcases Int.lt_trichotomy ax 0 with h | h | h
    · exact Or.inr (Int.sign_eq_neg_one_of_neg h)
    · exact absurd h hax
    · exact Or.inl (Int.sign_eq_one_of_pos h)
  have hsb : by_.sign = 1 ∨ by_.sign = -1 := by
    rcases Int.lt_trichotomy by_ 0 with h | h | h
    · exact Or.inr (Int.sign_eq_neg_one_of_neg h)
    · exact absurd h hby
    · exact Or.inl (Int.sign_eq_one_of_pos h)
  have IHh : ∀ (x0 y0 s t : Int) (u v : Nat), (s = 1 ∨ s = -1) → (t = 1 ∨ t = -1) →
      1 ≤ u → 1 ≤ v → u * v ≤ n →
      (generate2d n x0 y0 (s * (u : Int)) 0 0 (t * (v : Int))).Perm
        (rectList x0 y0 s 0 0 t u v) := by
    intro x0 y0 s t u v hs ht hu hv harea0
    obtain ⟨hsgn, habs, hne⟩ := sign_unit_mul s u hs hu
    obtain ⟨htgn, htabs, htne⟩ := sign_unit_mul t v ht hv
    have h0 := IH x0 y0 (s * (u : Int)) 0 0 (t * (v : Int))
      (Or.inl ⟨rfl, rfl, hne, htne⟩)
      (by rw [Int.add_zero, Int.zero_add, habs, htabs] ; exact harea0)
    rw [Int.add_zero, Int.zero_add, habs, htabs, hsgn, htgn, Int.sign_zero] at h0
    exact h0
  have IHv : ∀ (x0 y0 s t : Int) (u v : Nat), (s = 1 ∨ s = -1) → (t = 1 ∨ t = -1) →
      1 ≤ u → 1 ≤ v → u * v ≤ n →
      (generate2d n x0 y0 0 (s * (u : Int)) (t * (v : Int)) 0).Perm
        (rectList x0 y0 0 s t 0 u v) := by
    intro x0 y0 s t u v hs ht hu hv harea0
    obtain ⟨hsgn, habs, hne⟩ := sign_unit_mul s u hs hu
    obtain ⟨htgn, htabs, htne⟩ := sign_unit_mul t v ht hv
    have h0 := IH x0 y0 0 (s * (u : Int)) (t * (v : Int)) 0
      (Or.inr ⟨rfl, rfl, hne, htne⟩)
      (by rw [Int.add_zero, Int.zero_add, habs, htabs] ; exact harea0)
    rw [Int.add_zero, Int.zero_add, habs, htabs, hsgn, htgn, Int.sign_zero] at h0
    exact h0
  simp only [generate2d, Int.add_zero, Int.zero_add, Int.sign_zero, Int.zero_fdiv,
    Int.mul_zero, Int.sub_zero, neg_zero, ite_self]
  by_cases hH1 : by_.natAbs = 1
  · rw [if_pos hH1, hH1, rectList_h1]
    apply List.Perm.of_eq
    apply List.map_congr_left
    intro i _
    simp
  · rw [if_neg hH1]
    by_cases hW1 : ax.natAbs = 1
    · rw [if_pos hW1, hW1, rectList_w1]
      apply List.Perm.of_eq
      apply List.map_congr_left
      intro i _
      simp
    · rw [if_neg hW1]
      have hw2 : 2 ≤ ax.natAbs := by omega
      have hh2 : 2 ≤ by_.natAbs := by omega
      obtain ⟨hfdA, hfdA1, hfdAlt, hfdAle⟩ := fdiv_two_facts ax hw2
      obtain ⟨hfdB, hfdB1, hfdBlt, hfdBle⟩ := fdiv_two_facts by_ hh2
      by_cases hsplit : 2 * ax.natAbs > 3 * by_.natAbs
      · rw [if_pos hsplit]
        have key : ∀ w2 : Nat, 1 ≤ w2 → w2 < ax.natAbs →
            ∀ a2 : Int, a2 = ax.sign * (w2 : Int) →
            (generate2d n x y a2 0 0 by_
              ++ generate2d n (x + a2) y (ax - a2) 0 0 by_).Perm
              (rectList x y ax.sign 0 0 by_.sign ax.natAbs by_.natAbs) := by
          intro w2 hw2a hw2b a2 ha2
          have hsub : ax - a2 = ax.sign * ((ax.natAbs - w2 : Nat) : Int) := by
            rcases hsa with hs | hs <;> rw [ha2, hs] <;>
              [have hpos := Int.sign_eq_one_iff_pos.mp hs ;
               have hneg := Int.sign_eq_neg_one_iff_neg.mp hs] <;> omega
          have hbyeq : by_ = by_.sign * ((by_.natAbs : Nat) : Int) := by
            rcases hsb with hs | hs <;> rw [hs] <;>
              [have hpos := Int.sign_eq_one_iff_pos.mp hs ;
               have hneg := Int.sign_eq_neg_one_iff_neg.mp hs] <;> omega
          have P1 := IHh x y ax.sign by_.sign w2 by_.natAbs hsa hsb hw2a hh1
            (area_shrink' hw2b le_rfl hh2 harea)
          have P2 := IHh (x + a2) y ax.sign by_.sign (ax.natAbs - w2) by_.natAbs hsa hsb
            (by omega) hh1 (area_shrink' (by omega) le_rfl hh2 harea)
          rw [← ha2, ← hbyeq] at P1
          rw [← hsub, ← hbyeq] at P2
          refine List.Perm.trans (List.Perm.append P1 P2) ?_
          have hsplitw : ax.natAbs = w2 + (ax.natAbs - w2) := by omega
          conv_rhs => rw [hsplitw]
          rw [rectList_split_a]
          have horigx : x + (w2 : Int) * ax.sign = x + a2 := by rw [ha2] ; ring
          have horigy : y + (w2 : Int) * 0 = y := by ring
          rw [horigx, horigy]
        by_cases hnud : (Int.fdiv ax 2).natAbs % 2 = 1 ∧ ax.natAbs > 2
        · simp only [if_pos hnud]
          have hval : Int.fdiv ax 2 + ax.sign
              = ax.sign * (((Int.fdiv ax 2).natAbs + 1 : Nat) : Int) := by
            nth_rewrite 1 [hfdA]
            rw [Nat.cast_add, Nat.cast_one]
            ring
          exact key ((Int.fdiv ax 2).natAbs + 1) (by omega) (by omega) _ hval
        · simp only [if_neg hnud]
          exact key (Int.fdiv ax 2).natAbs hfdA1 hfdAlt _ hfdA
      · rw [if_neg hsplit]
        have key2 : ∀ h2 : Nat, 1 ≤ h2 → h2 < by_.natAbs →
            ∀ b2 : Int, b2 = by_.sign * (h2 : Int) →
            (generate2d n x y 0 b2 (Int.fdiv ax 2) 0
              ++ generate2d n x (y + b2) ax 0 0 (by_ - b2)
              ++ generate2d n (x + (ax - ax.sign)) (y + (b2 - by_.sign)) 0 (-b2)
                  (-(ax - Int.fdiv ax 2)) 0).Perm
              (rectList x y ax.sign 0 0 by_.sign ax.natAbs by_.natAbs) := by
          intro h2 hh2a hh2b b2 hb2
          -- the three sub-rectangles, via the induction hypothesis
          have P1 := IHv x y by_.sign ax.sign h2 (Int.fdiv ax 2).natAbs hsb hsa hh2a hfdA1
            (area_shrink' hh2b (by omega) hw2 (by rw [Nat.mul_comm] ; exact harea))
          have P2 := IHh x (y + b2) ax.sign by_.sign ax.natAbs (by_.natAbs - h2) hsa hsb
            hw1 (by omega) (area_shrink le_rfl (by omega) hw2 harea)
          have P3 := IHv (x + (ax - ax.sign)) (y + (b2 - by_.sign)) (-by_.sign) (-ax.sign)
            h2 (ax.natAbs - (Int.fdiv ax 2).natAbs)
            (by rcases hsb with h | h <;> rw [h] <;> norm_num)
            (by rcases hsa with h | h <;> rw [h] <;> norm_num)
            hh2a (by omega)
            (area_shrink' hh2b (by omega) hw2 (by rw [Nat.mul_comm] ; exact harea))
          rw [← hb2, ← hfdA] at P1
          have haxeq : ax = ax.sign * ((ax.natAbs : Nat) : Int) := by
            rcases hsa with hs | hs <;> rw [hs] <;>
              [have hpos := Int.sign_eq_one_iff_pos.mp hs ;
               have hneg := Int.sign_eq_neg_one_iff_neg.mp hs] <;> omega
          have hq2 : by_ - b2 = by_.sign * ((by_.natAbs - h2 : Nat) : Int) := by
            rcases hsb with hs | hs <;> rw [hb2, hs] <;>
              [have hpos := Int.sign_eq_one_iff_pos.mp hs ;
               have hneg := Int.sign_eq_neg_one_iff_neg.mp hs] <;> omega
          rw [← haxeq, ← hq2] at P2
          have hneg1 : -by_.sign * ((h2 : Nat) : Int) = -b2 := by rw [hb2] ; ring
          have hneg2 : -ax.sign * ((ax.natAbs - (Int.fdiv ax 2).natAbs : Nat) : Int)
              = -(ax - Int.fdiv ax 2) := by
            rw [hfdA]
            rcases hsa with hs | hs <;> rw [hs] <;>
              [have hpos := Int.sign_eq_one_iff_pos.mp hs ;
               have hneg := Int.sign_eq_neg_one_iff_neg.mp hs] <;> omega
          rw [hneg1, hneg2] at P3
          refine List.Perm.trans (List.Perm.append (List.Perm.append P1 P2) P3) ?_
          -- assemble the three rectangles
          have T1 := rectList_transpose x y 0 by_.sign ax.sign 0 h2 (Int.fdiv ax 2).natAbs
          have T3a := rectList_transpose (x + (ax - ax.sign)) (y + (b2 - by_.sign))
            0 (-by_.sign) (-ax.sign) 0 h2 (ax.natAbs - (Int.fdiv ax 2).natAbs)
          have T3b := rectList_rev (x + (ax - ax.sign)) (y + (b2 - by_.sign))
            (-ax.sign) 0 0 (-by_.sign) (ax.natAbs - (Int.fdiv ax 2).natAbs) h2
          rw [neg_zero, neg_neg, neg_neg] at T3b
          have hUx : x + (ax - ax.sign)
                + ((ax.natAbs - (Int.fdiv ax 2).natAbs - 1 : Nat) : Int) * -ax.sign
                + ((h2 - 1 : Nat) : Int) * 0
              = x + (((Int.fdiv ax 2).natAbs : Nat) : Int) * ax.sign := by
            have hlt := hfdAlt
            rcases hsa with hs | hs <;> rw [hs] <;>
              [have hpos := Int.sign_eq_one_iff_pos.mp hs ;
               have hneg := Int.sign_eq_neg_one_iff_neg.mp hs] <;>
              (generalize (Int.fdiv ax 2).natAbs = W2 at hlt ⊢ ; omega)
          have hUy : y + (b2 - by_.sign)
                + ((ax.natAbs - (Int.fdiv ax 2).natAbs - 1 : Nat) : Int) * 0
                + ((h2 - 1 : Nat) : Int) * -by_.sign
              = y + (((Int.fdiv ax 2).natAbs : Nat) : Int) * 0 := by
            rw [hb2]
            rcases hsb with hs | hs <;> rw [hs] <;>
              [have hpos := Int.sign_eq_one_iff_pos.mp hs ;
               have hneg := Int.sign_eq_neg_one_iff_neg.mp hs] <;>
              (generalize (Int.fdiv ax 2).natAbs = W2 at * ; omega)
          have T3 := List.Perm.trans T3a T3b
          rw [hUx, hUy] at T3
          have hsplith : by_.natAbs = h2 + (by_.natAbs - h2) := by omega
          have Sb := rectList_split_b x y ax.sign 0 0 by_.sign ax.natAbs h2
            (by_.natAbs - h2)
          have hox : x + (h2 : Int) * 0 = x := by ring
          have hoy : y + (h2 : Int) * by_.sign = y + b2 := by rw [hb2] ; ring
          rw [hox, hoy] at Sb
          conv_rhs => rw [hsplith]
          refine List.Perm.trans ?_ Sb.symm
          rw [List.append_assoc]
          refine List.Perm.trans (List.Perm.append_left _ List.perm_append_comm) ?_
          rw [← List.append_assoc]
          refine List.Perm.append ?_ (List.Perm.refl _)
          have hw' : ax.natAbs = (Int.fdiv ax 2).natAbs
              + (ax.natAbs - (Int.fdiv ax 2).natAbs) := by omega
          conv_rhs => rw [hw']
          rw [rectList_split_a]
          exact List.Perm.append T1 T3
        by_cases hnud : (Int.fdiv by_ 2).natAbs % 2 = 1 ∧ by_.natAbs > 2
        · simp only [if_pos hnud]
          have hval : Int.fdiv by_ 2 + by_.sign
              = by_.sign * (((Int.fdiv by_ 2).natAbs + 1 : Nat) : Int) := by
            nth_rewrite 1 [hfdB]
            rw [Nat.cast_add, Nat.cast_one]
            ring
          exact key2 ((Int.fdiv by_ 2).natAbs + 1) (by omega) (by omega) _ hval
        · simp only [if_neg hnud]
          exact key2 (Int.fdiv by_ 2).natAbs hfdB1 hfdBlt _ hfdB

/-- Totality of the fueled recursion: under the axis invariant, with fuel at
least the covered area, `generate2d` produces a permutation of the
axis-aligned rectangle spanned by its two vectors. -/
theorem generate2d_perm :
    ∀ (fuel : Nat) (x y ax ay bx by_ : Int), Axis ax ay bx by_ →
      (ax + ay).natAbs * (bx + by_).natAbs ≤ fuel →
      (generate2d fuel x y ax ay bx by_).Perm
        (rectList x y ax.sign ay.sign bx.sign by_.sign
          (ax + ay).natAbs (bx + by_).natAbs) := by
  intro fuel
  induction fuel with
  | zero =>
    intro x y ax ay bx by_ hAx harea
    exfalso
    rcases hAx with ⟨h1, h2, h3, h4⟩ | ⟨h1, h2, h3, h4⟩
    · rw [h1, h2, Int.add_zero, Int.zero_add] at harea
      have p1 := Int.natAbs_pos.mpr h3
      have p2 := Int.natAbs_pos.mpr h4
      have hpos := Nat.mul_pos p1 p2
      omega
    · rw [h1, h2, Int.zero_add, Int.add_zero] at harea
      have p1 := Int.natAbs_pos.mpr h3
      have p2 := Int.natAbs_pos.mpr h4
      have hpos := Nat.mul_pos p1 p2
      omega
  | succ n ihn =>
    intro x y ax ay bx by_ hAx harea
    rcases hAx with ⟨h1, h2, h3, h4⟩ | ⟨h1, h2, h3, h4⟩
    · subst h1; subst h2
      rw [Int.add_zero, Int.zero_add] at harea ⊢
      rw [Int.sign_zero]
      exact generate2d_perm_step n ihn x y ax by_ h3 h4 harea
    · subst h1; subst h2
      rw [Int.zero_add, Int.add_zero] at harea ⊢
      rw [Int.sign_zero]
      have hst := generate2d_perm_step n ihn y x ay bx h3 h4 harea
      rw [generate2d_swap]
      have hmap := hst.map Prod.swap
      rwa [rectList_swap_map] at hmap

theorem allCells_eq_rectList (w h : Nat) :
    allCells w h = rectList 0 0 1 0 0 1 w h := by
  unfold allCells rectList
  apply flatMap_congr_left
  intro i _
  apply List.map_congr_left
  intro j _
  simp

theorem mem_allCells {w h : Nat} {p : Int × Int} :
    p ∈ allCells w h ↔ 0 ≤ p.1 ∧ p.1 < (w : Int) ∧ 0 ≤ p.2 ∧ p.2 < (h : Int) := by
  obtain ⟨a, b⟩ := p
  simp only [allCells, List.mem_flatMap, List.mem_map, List.mem_range, Prod.mk.injEq]
  constructor
  · rintro ⟨i, hi, j, hj, h1, h2⟩
    omega
  · rintro ⟨h1, h2, h3, h4⟩
    exact ⟨a.toNat, by omega, b.toNat, by omega, by omega, by omega⟩

theorem allCells_nodup (w h : Nat) : (allCells w h).Nodup := by
  unfold allCells
  rw [List.nodup_flatMap]
  refine ⟨fun i _ => ?_, ?_⟩
  · refine List.Nodup.map ?_ (List.nodup_range h)
    intro a b hab
    simpa using hab
  · refine List.Pairwise.imp ?_ (List.pairwise_lt_range w)
    intro a b hab p hp1 hp2
    simp only [List.mem_map, List.mem_range] at hp1 hp2
    obtain ⟨j1, hj1, he1⟩ := hp1
    obtain ⟨j2, hj2, he2⟩ := hp2
    rw [← he2] at he1
    have hfst : (a : Int) = (b : Int) := congrArg Prod.fst he1
    omega

theorem length_allCells (w h : Nat) : (allCells w h).length = w * h := by
  unfold allCells
  rw [length_flatMap_uniform _ h (fun y => by simp) (List.range w), List.length_range]

/-- `gilbert2d` enumerates a permutation of the full cell grid. -/
theorem gilbert2d_perm_allCells (w h : Nat) (hw : 1 ≤ w) (hh : 1 ≤ h) :
    (gilbert2d w h).Perm (allCells w h) := by
  have hwne : (w : Int) ≠ 0 := by omega
  have hhne : (h : Int) ≠ 0 := by omega
  have hsw : ((w : Nat) : Int).sign = 1 := Int.sign_eq_one_of_pos (by omega)
  have hsh : ((h : Nat) : Int).sign = 1 := Int.sign_eq_one_of_pos (by omega)
  unfold gilbert2d
  by_cases hc : h ≤ w
  · rw [if_pos hc]
    have hp := generate2d_perm (w * h + 1) 0 0 (w : Int) 0 0 (h : Int)
      (Or.inl ⟨rfl, rfl, hwne, hhne⟩)
      (by rw [Int.add_zero, Int.zero_add, Int.natAbs_ofNat, Int.natAbs_ofNat]
          exact Nat.le_succ _)
    rw [Int.add_zero, Int.zero_add, Int.sign_zero, hsw, hsh,
      Int.natAbs_ofNat, Int.natAbs_ofNat, ← allCells_eq_rectList] at hp
    exact hp
  · rw [if_neg hc]
    have hp := generate2d_perm (w * h + 1) 0 0 0 (h : Int) (w : Int) 0
      (Or.inr ⟨rfl, rfl, hhne, hwne⟩)
      (by rw [Int.zero_add, Int.add_zero, Int.natAbs_ofNat, Int.natAbs_ofNat,
            Nat.mul_comm]
          exact Nat.le_succ _)
    rw [Int.zero_add, Int.add_zero, Int.sign_zero, hsw, hsh,
      Int.natAbs_ofNat, Int.natAbs_ofNat] at hp
    refine hp.trans ?_
    refine (rectList_transpose 0 0 0 1 1 0 h w).trans ?_
    rw [← allCells_eq_rectList]

/-- C3: for every width ≥ 1 and height ≥ 1 (arbitrary, not just powers of
two), `gilbert2d` returns a sequence of length width·height in which every
cell (x, y) with 0 ≤ x < width and 0 ≤ y < height appears exactly once —
no duplicates, no omissions. -/
theorem C3_curve_totality (w h : Nat) (hw : 1 ≤ w) (hh : 1 ≤ h) :
    (gilbert2d w h).length = w * h ∧
    (gilbert2d w h).Nodup ∧
    (∀ p : Int × Int,
      p ∈ gilbert2d w h ↔ 0 ≤ p.1 ∧ p.1 < (w : Int) ∧ 0 ≤ p.2 ∧ p.2 < (h : Int)) ∧
    (∀ p : Int × Int, 0 ≤ p.1 → p.1 < (w : Int) → 0 ≤ p.2 → p.2 < (h : Int) →
      (gilbert2d w h).count p = 1) := by
  have hperm := gilbert2d_perm_allCells w h hw hh
  have hnd : (gilbert2d w h).Nodup :=
    (List.Perm.nodup_iff hperm).mpr (allCells_nodup w h)
  refine ⟨?_, hnd, ?_, ?_⟩
  · rw [hperm.length_eq, length_allCells]
  · intro p
    rw [hperm.mem_iff, mem_allCells]
  · intro p h1 h2 h3 h4
    have hbb : ∀ u v : Int × Int, (u == v) = @BEq.beq _ instBEqOfDecidableEq u v := by
      intro u v
      show (u.1 == v.1 && u.2 == v.2) = decide (u = v)
      by_cases hq : u = v
      · subst hq
        simp
      · obtain ⟨u1, u2⟩ := u; obtain ⟨v1, v2⟩ := v
        rw [decide_eq_false hq]
        have hne : ¬(u1 = v1 ∧ u2 = v2) := by
          intro hc
          exact hq (by simp [Prod.ext_iff, hc.1, hc.2])
        by_cases h1' : u1 = v1
        · have h2' : u2 ≠ v2 := fun hc => hne ⟨h1', hc⟩
          simp [h1', h2']
        · simp [h1']
    have hbridge : ∀ (l : List (Int × Int)) (q : Int × Int),
        l.count q = @List.count _ instBEqOfDecidableEq q l := by
      intro l q
      induction l with
      | nil => rfl
      | cons a t ih =>
        simp only [List.count_cons, ih, hbb]
    rw [hbridge]
    refine List.count_eq_one_of_mem hnd ?_
    rw [hperm.mem_iff, mem_allCells]
    exact ⟨h1, h2, h3, h4⟩

theorem C3_witness :
    (gilbert2d 3 2).length = 3 * 2 ∧
    (gilbert2d 3 2).Nodup ∧
    (∀ p : Int × Int,
      p ∈ gilbert2d 3 2 ↔ 0 ≤ p.1 ∧ p.1 < ((3 : Nat) : Int) ∧ 0 ≤ p.2 ∧ p.2 < ((2 : Nat) : Int)) ∧
    (∀ p : Int × Int, 0 ≤ p.1 → p.1 < ((3 : Nat) : Int) → 0 ≤ p.2 → p.2 < ((2 : Nat) : Int) →
      (gilbert2d 3 2).count p = 1) :=
  C3_curve_totality 3 2 (by decide) (by decide)

/-- C9: for width 3 and height 2, `gilbert2d` takes the `height ≤ width`
branch with top-level vector a = (3, 0); the resulting traversal is a
permutation of all 6 cells with unit-step adjacency between consecutive
entries; and the cyclic offset round(((√5 − 1)/2)·6) computed by
`process` equals 4. -/
theorem C9_three_by_two :
    gilbert2d 3 2 = generate2d (3 * 2 + 1) 0 0 3 0 0 2 ∧
    (gilbert2d 3 2).Perm (allCells 3 2) ∧
    List.Chain' unitStep (gilbert2d 3 2) ∧
    goldenOffset 6 = 4 := by
  have hval : gilbert2d 3 2
      = [((0 : Int), (0 : Int)), (0, 1), (1, 1), (2, 1), (2, 0), (1, 0)] := by decide
  have hsqrt : Nat.sqrt 180 = 13 := by
    have h1 : 13 ≤ Nat.sqrt 180 := Nat.le_sqrt.mpr (by decide)
    have h2 : Nat.sqrt 180 < 14 := Nat.sqrt_lt.mpr (by decide)
    omega
  refine ⟨rfl, by decide, ?_, ?_⟩
  · rw [hval]
    simp only [List.chain'_cons, List.chain'_singleton, and_true]
    refine ⟨?_, ?_, ?_, ?_, ?_⟩ <;> decide
  · show (Nat.sqrt (5 * 6 * 6) - 6 + 1) / 2 = 4
    norm_num [hsqrt]

/-- A straight run of `n` cells stepping by a unit vector is unit-step
adjacent (the two base cases of `generate2d`). -/
theorem chain'_run (x y dx dy : Int) (n : Nat) (hstep : dx.natAbs + dy.natAbs = 1) :
    List.Chain' unitStep
      ((List.range n).map (fun (i : Nat) => (x + (i : Int) * dx, y + (i : Int) * dy))) := by
  rw [List.chain'_iff_get]
  intro i hi
  simp only [List.get_eq_getElem, List.getElem_map, List.getElem_range]
  show ((x + (i : Int) * dx) - (x + ((i + 1 : Nat) : Int) * dx)).natAbs
      + ((y + (i : Int) * dy) - (y + ((i + 1 : Nat) : Int) * dy)).natAbs = 1
  have h1 : (x + (i : Int) * dx) - (x + ((i + 1 : Nat) : Int) * dx) = -dx := by
    push_cast; ring
  have h2 : (y + (i : Int) * dy) - (y + ((i + 1 : Nat) : Int) * dy) = -dy := by
    push_cast; ring
  rw [h1, h2, Int.natAbs_neg, Int.natAbs_neg, hstep]

theorem head?_append_some {α : Type _} {l₁ l₂ : List α} {a : α}
    (h : l₁.head? = some a) : (l₁ ++ l₂).head? = some a := by
  rw [List.head?_append, h]
  rfl

theorem getLast?_append_some {α : Type _} {l₁ l₂ : List α} {a : α}
    (h : l₂.getLast? = some a) : (l₁ ++ l₂).getLast? = some a := by
  rw [List.getLast?_append, h]
  rfl

/-- The two-row family: a `w × 2` call with positive horizontal major axis
is unit-step adjacent, starts at its origin, and (for even `w`) ends at the
bottom-right cell of its rectangle. -/
theorem generate2d_two_rows : ∀ w : Nat, 1 ≤ w → ∀ fuel : Nat, w + 2 ≤ fuel →
    ∀ x y : Int,
    List.Chain' unitStep (generate2d fuel x y (w : Int) 0 0 2) ∧
    (generate2d fuel x y (w : Int) 0 0 2).head? = some (x, y) ∧
    (w % 2 = 0 →
      (generate2d fuel x y (w : Int) 0 0 2).getLast? = some (x + (w : Int) - 1, y)) := by
  intro w
  induction w using Nat.strong_induction_on with
  | _ w IH =>
    intro hw fuel hfuel x y
    by_cases h4 : 4 ≤ w
    · -- inductive case: horizontal split into an even-width left half and the rest
      obtain ⟨f, rfl⟩ : ∃ f, fuel = f + 1 := ⟨fuel - 1, by omega⟩
      have hsgnw : ((w : Nat) : Int).sign = 1 := Int.sign_eq_one_of_pos (by omega)
      have hF : Int.fdiv ((w : Nat) : Int) 2 = ((w / 2 : Nat) : Int) := by
        rw [Int.fdiv_eq_ediv _ (by norm_num)]
        omega
      simp only [generate2d, Int.add_zero, Int.zero_add, Int.sign_zero, Int.zero_fdiv,
        Int.mul_zero, Int.sub_zero, neg_zero, ite_self, Int.natAbs_ofNat,
        show ((2 : Int)).natAbs = 2 from rfl, hsgnw, hF]
      rw [if_neg (by omega : ¬ (2 = 1)), if_neg (by omega : ¬ (w = 1)),
        if_pos (by omega : 2 * w > 3 * 2)]
      have key : ∀ W1 : Nat, 1 ≤ W1 → W1 + 1 ≤ w - 1 → W1 % 2 = 0 →
          ∀ a2 : Int, a2 = ((W1 : Nat) : Int) →
          List.Chain' unitStep
            (generate2d f x y a2 0 0 2
              ++ generate2d f (x + a2) y (((w : Nat) : Int) - a2) 0 0 2) ∧
          (generate2d f x y a2 0 0 2
              ++ generate2d f (x + a2) y (((w : Nat) : Int) - a2) 0 0 2).head?
            = some (x, y) ∧
          (w % 2 = 0 →
            (generate2d f x y a2 0 0 2
              ++ generate2d f (x + a2) y (((w : Nat) : Int) - a2) 0 0 2).getLast?
              = some (x + (w : Int) - 1, y)) := by
        intro W1 hW1a hW1b hW1e a2 ha2
        have hsub : ((w : Nat) : Int) - a2 = (((w - W1 : Nat) : Nat) : Int) := by
          rw [ha2]; push_cast [Nat.cast_sub (by omega : W1 ≤ w)]; ring
        obtain ⟨C1c, C1h, C1l⟩ := IH W1 (by omega) hW1a f (by omega) x y
        obtain ⟨C2c, C2h, C2l⟩ := IH (w - W1) (by omega) (by omega) f (by omega) (x + a2) y
        rw [← ha2] at C1c C1h C1l
        rw [← hsub] at C2c C2h C2l
        have hlast1 := C1l hW1e
        refine ⟨?_, ?_, ?_⟩
        · refine List.Chain'.append C1c C2c ?_
          intro p hp q hq
          rw [hlast1] at hp
          rw [C2h] at hq
          simp only [Option.mem_def, Option.some.injEq] at hp hq
          subst hp; subst hq
          show ((x + a2 - 1) - (x + a2)).natAbs + (y - y).natAbs = 1
          omega
        · exact head?_append_some C1h
        · intro hwe
          have h2e : (w - W1) % 2 = 0 := by omega
          have hlast2 := C2l h2e
          rw [getLast?_append_some hlast2]
          congr 2
          rw [ha2]
          ring
      by_cases hnud : (w / 2) % 2 = 1 ∧ w > 2
      · rw [if_pos hnud]
        exact key (w / 2 + 1) (by omega) (by omega) (by omega) _ (by push_cast; ring)
      · rw [if_neg hnud]
        exact key (w / 2) (by omega) (by omega) (by omega) _ rfl
    · -- base cases w = 1, 2, 3
      interval_cases w
      · -- w = 1
        simp only [Nat.cast_one]
        obtain ⟨f, rfl⟩ : ∃ f, fuel = f + 1 := ⟨fuel - 1, by omega⟩
        have hval : generate2d (f + 1) x y 1 0 0 2 = [(x, y), (x, y + 1)] := by
          simp only [generate2d]
          norm_num [List.range_succ, show Int.sign 2 = 1 from rfl,
            show Int.sign 1 = 1 from rfl]
        rw [hval]
        refine ⟨?_, rfl, ?_⟩
        · simp only [List.chain'_cons, List.chain'_singleton, and_true]
          show (x - x).natAbs + (y - (y + 1)).natAbs = 1
          omega
        · intro h
          exact absurd h (by omega)
      · -- w = 2
        simp only [Nat.cast_ofNat]
        obtain ⟨f, rfl⟩ : ∃ f, fuel = f + 2 := ⟨fuel - 2, by omega⟩
        have hval : generate2d (f + 2) x y 2 0 0 2
            = [(x, y), (x, y + 1), (x + 1, y + 1), (x + 1, y)] := by
          simp only [generate2d]
          norm_num [List.range_succ, show Int.sign 2 = 1 from rfl,
            show Int.fdiv 2 2 = 1 from rfl, show Int.sign 1 = 1 from rfl,
            show Int.sign (-1 : Int) = -1 from rfl, show ((-1 : Int)).natAbs = 1 from rfl]
        rw [hval]
        refine ⟨?_, rfl, ?_⟩
        · simp only [List.chain'_cons, List.chain'_singleton, and_true]
          refine ⟨?_, ?_, ?_⟩
          · show (x - x).natAbs + (y - (y + 1)).natAbs = 1 ; omega
          · show (x - (x + 1)).natAbs + (y + 1 - (y + 1)).natAbs = 1 ; omega
          · show (x + 1 - (x + 1)).natAbs + (y + 1 - y).natAbs = 1 ; omega
        · intro _
          show some (x + 1, y) = some (x + 2 - 1, y)
          have e : x + 2 - 1 = x + 1 := by ring
          rw [e]
      · -- w = 3
        simp only [Nat.cast_ofNat]
        obtain ⟨f, rfl⟩ : ∃ f, fuel = f + 2 := ⟨fuel - 2, by omega⟩
        have hval : generate2d (f + 2) x y 3 0 0 2
            = [(x, y), (x, y + 1), (x + 1, y + 1), (x + 2, y + 1), (x + 2, y), (x + 1, y)] := by
          simp only [generate2d]
          norm_num [List.range_succ, show Int.sign 2 = 1 from rfl, show Int.sign 3 = 1 from rfl,
            show Int.fdiv 3 2 = 1 from rfl, show Int.fdiv 2 2 = 1 from rfl,
            show Int.sign 1 = 1 from rfl, show Int.sign (-2 : Int) = -1 from rfl,
            show ((-2 : Int)).natAbs = 2 from rfl, show ((-1 : Int)).natAbs = 1 from rfl]
          ring
        rw [hval]
        refine ⟨?_, rfl, ?_⟩
        · simp only [List.chain'_cons, List.chain'_singleton, and_true]
          refine ⟨?_, ?_, ?_, ?_, ?_⟩
          · show (x - x).natAbs + (y - (y + 1)).natAbs = 1 ; omega
          · show (x - (x + 1)).natAbs + (y + 1 - (y + 1)).natAbs = 1 ; omega
          · show (x + 1 - (x + 2)).natAbs + (y + 1 - (y + 1)).natAbs = 1 ; omega
          · show (x + 2 - (x + 2)).natAbs + (y + 1 - y).natAbs = 1 ; omega
          · show (x + 2 - (x + 1)).natAbs + (y - y).natAbs = 1 ; omega
        · intro h
          exact absurd h (by omega)

theorem unitStep_swap (p q : Int × Int) :
    unitStep (Prod.swap p) (Prod.swap q) ↔ unitStep p q := by
  obtain ⟨a, b⟩ := p; obtain ⟨c, d⟩ := q
  show (b - d).natAbs + (a - c).natAbs = 1 ↔ (a - c).natAbs + (b - d).natAbs = 1
  omega

/-- C5 counterexample: the 4 × 5 curve contains a diagonal step — the
consecutive entries (2,3), (1,4) differ in both axes — so consecutive
entries of `gilbert2d` do not always differ by exactly one unit step. -/
theorem C5_counterexample : ¬ List.Chain' unitStep (gilbert2d 4 5) := by
  have hval : gilbert2d 4 5
      = [(0, 0), (0, 1), (1, 1), (1, 0), (2, 0), (3, 0), (3, 1), (2, 1), (2, 2), (3, 2),
         (3, 3), (3, 4), (2, 4), (2, 3), (1, 4), (1, 3), (1, 2), (0, 2), (0, 3), (0, 4)] := by
    decide
  rw [hval]
  simp only [List.chain'_cons, List.chain'_singleton, and_true]
  decide

/-- C5 (amended): whenever `min width height ≤ 2`, every pair of
consecutive entries of `gilbert2d width height` differs by exactly one
unit step in exactly one axis; for larger minima this can fail
(`C5_counterexample`). -/
theorem C5_amended_adjacency (w h : Nat) (hw : 1 ≤ w) (hh : 1 ≤ h)
    (hmin : w ≤ 2 ∨ h ≤ 2) :
    List.Chain' unitStep (gilbert2d w h) := by
  unfold gilbert2d
  by_cases hc : h ≤ w
  · rw [if_pos hc]
    have hh2 : h = 1 ∨ h = 2 := by
      rcases hmin with hm | hm
      · omega
      · omega
    rcases hh2 with rfl | rfl
    · have hsgnw : ((w : Nat) : Int).sign = 1 := Int.sign_eq_one_of_pos (by omega)
      simp only [generate2d, Nat.cast_one]
      rw [if_pos (by norm_num : ((0 : Int) + 1).natAbs = 1)]
      exact chain'_run 0 0 ((w : Int)).sign ((0 : Int)).sign ((w : Int) + 0).natAbs
        (by rw [hsgnw, Int.sign_zero]; rfl)
    · have h2c : ((2 : Nat) : Int) = (2 : Int) := by norm_num
      rw [h2c]
      exact (generate2d_two_rows w hw (w * 2 + 1) (by omega) 0 0).1
  · rw [if_neg hc]
    have hw2 : w = 1 ∨ w = 2 := by
      rcases hmin with hm | hm
      · omega
      · omega
    rcases hw2 with rfl | rfl
    · have hsgnh : ((h : Nat) : Int).sign = 1 := Int.sign_eq_one_of_pos (by omega)
      simp only [generate2d, Nat.cast_one]
      rw [if_pos (by norm_num : ((1 : Int) + 0).natAbs = 1)]
      exact chain'_run 0 0 ((0 : Int)).sign ((h : Int)).sign ((0 : Int) + (h : Int)).natAbs
        (by rw [hsgnh, Int.sign_zero]; rfl)
    · have h2c : ((2 : Nat) : Int) = (2 : Int) := by norm_num
      rw [h2c, generate2d_swap]
      rw [List.chain'_map]
      have hch := (generate2d_two_rows h hh (2 * h + 1) (by omega) 0 0).1
      refine List.Chain'.imp ?_ hch
      intro a b hab
      exact (unitStep_swap a b).mpr hab

theorem C5_witness : List.Chain' unitStep (gilbert2d 5 2) :=
  C5_amended_adjacency 5 2 (by decide) (by decide) (Or.inr (by decide))

/-- Evaluating a sequence of writes at a position whose writes all carry the
same value: the result is that value if the position is written at all, and
the initial buffer's value otherwise. -/
theorem writeAll_key_const {β : Type} :
    ∀ (ps : List (Int × β)) (init : Int → β) (p : Int) (v : β),
    (∀ q ∈ ps, q.1 = p → q.2 = v) →
    writeAll init ps p = if p ∈ ps.map Prod.fst then v else init p := by
  intro ps
  induction ps with
  | nil =>
    intro init p v _
    simp [writeAll]
  | cons a t ih =>
    intro init p v hv
    have hstep : writeAll init (a :: t) p
        = writeAll (Function.update init a.1 a.2) t p := rfl
    rw [hstep, ih _ p v (fun q hq hq1 => hv q (List.mem_cons_of_mem a hq) hq1)]
    simp only [List.map_cons, List.mem_cons]
    by_cases hmem : p ∈ t.map Prod.fst
    · rw [if_pos hmem, if_pos (Or.inr hmem)]
    · rw [if_neg hmem]
      by_cases ha : a.1 = p
      · rw [if_pos (Or.inl ha.symm)]
        have hv2 : a.2 = v := hv a (List.mem_cons_self a t) ha
        rw [← hv2, ← ha, Function.update_same]
      · have hnot : ¬(p = a.1 ∨ p ∈ t.map Prod.fst) := by
          rintro (hc | hc)
          · exact ha hc.symm
          · exact hmem hc
        rw [if_neg hnot]
        exact Function.update_noteq (fun hc => ha hc.symm) _ _

/-- `GilbertAlgo.process` is the sequential execution of its write list. -/
theorem gilbertProcess_eq_writeAll (w h : Nat) (mode : CMode) (data : Int → Nat) :
    gilbertProcess w h mode data = writeAll data (procPairs w h mode data) := by
  cases mode <;>
    (unfold gilbertProcess writeAll procPairs
     rw [foldl_flatMap]
     apply List.foldl_ext
     intro nd i _
     rw [List.foldl_map]
     rfl)

theorem mem_procPairs_encrypt {w h : Nat} {data : Int → Nat} {q : Int × Nat} :
    q ∈ procPairs w h CMode.encrypt data ↔
      ∃ i : Nat, i < w * h ∧ ∃ c : Nat, c < 4 ∧
        q = (pixPos w (curveAt w h ((i + goldenOffset (w * h)) % (w * h))) + (c : Int),
             data (pixPos w (curveAt w h i) + (c : Int))) := by
  simp only [procPairs, List.mem_flatMap, List.mem_map, List.mem_range]
  constructor
  · rintro ⟨i, hi, c, hc, h⟩
    exact ⟨i, hi, c, hc, h.symm⟩
  · rintro ⟨i, hi, c, hc, h⟩
    exact ⟨i, hi, c, hc, h.symm⟩

theorem mem_procPairs_decrypt {w h : Nat} {data : Int → Nat} {q : Int × Nat} :
    q ∈ procPairs w h CMode.decrypt data ↔
      ∃ i : Nat, i < w * h ∧ ∃ c : Nat, c < 4 ∧
        q = (pixPos w (curveAt w h i) + (c : Int),
             data (pixPos w (curveAt w h ((i + goldenOffset (w * h)) % (w * h))) + (c : Int))) := by
  simp only [procPairs, List.mem_flatMap, List.mem_map, List.mem_range]
  constructor
  · rintro ⟨i, hi, c, hc, h⟩
    exact ⟨i, hi, c, hc, h.symm⟩
  · rintro ⟨i, hi, c, hc, h⟩
    exact ⟨i, hi, c, hc, h.symm⟩

theorem curveAt_get (w h : Nat) {i : Nat} (hi' : i < (gilbert2d w h).length) :
    curveAt w h i = (gilbert2d w h).get ⟨i, hi'⟩ := by
  rw [curveAt, List.getD_eq_getElem?_getD, List.getElem?_eq_getElem hi']
  rfl

theorem curveAt_mem_range (w h : Nat) (hw : 1 ≤ w) (hh : 1 ≤ h) {i : Nat} (hi : i < w * h) :
    0 ≤ (curveAt w h i).1 ∧ (curveAt w h i).1 < (w : Int) ∧
    0 ≤ (curveAt w h i).2 ∧ (curveAt w h i).2 < (h : Int) := by
  have hperm := gilbert2d_perm_allCells w h hw hh
  have hlen : (gilbert2d w h).length = w * h := by rw [hperm.length_eq, length_allCells]
  have hi' : i < (gilbert2d w h).length := by omega
  rw [curveAt_get w h hi']
  have hmem : (gilbert2d w h).get ⟨i, hi'⟩ ∈ gilbert2d w h := by
    rw [List.get_eq_getElem]
    exact List.getElem_mem hi'
  rw [hperm.mem_iff, mem_allCells] at hmem
  exact hmem

theorem curveAt_inj (w h : Nat) (hw : 1 ≤ w) (hh : 1 ≤ h) {i j : Nat}
    (hi : i < w * h) (hj : j < w * h) (hij : curveAt w h i = curveAt w h j) : i = j := by
  have hperm := gilbert2d_perm_allCells w h hw hh
  have hnd := (List.Perm.nodup_iff hperm).mpr (allCells_nodup w h)
  have hlen : (gilbert2d w h).length = w * h := by rw [hperm.length_eq, length_allCells]
  have hi' : i < (gilbert2d w h).length := by omega
  have hj' : j < (gilbert2d w h).length := by omega
  rw [curveAt_get w h hi', curveAt_get w h hj'] at hij
  simp only [List.get_eq_getElem] at hij
  exact (List.Nodup.getElem_inj_iff hnd).mp hij

theorem pixPos_inj (w h : Nat) {p q : Int × Int}
    (hp : 0 ≤ p.1 ∧ p.1 < (w : Int) ∧ 0 ≤ p.2 ∧ p.2 < (h : Int))
    (hq : 0 ≤ q.1 ∧ q.1 < (w : Int) ∧ 0 ≤ q.2 ∧ q.2 < (h : Int))
    {c c' : Nat} (hc : c < 4) (hc' : c' < 4)
    (heq : pixPos w p + (c : Int) = pixPos w q + (c' : Int)) : p = q ∧ c = c' := by
  obtain ⟨p1, p2⟩ := p; obtain ⟨q1, q2⟩ := q
  obtain ⟨hp0, hp1, hp2, hp3⟩ := hp
  obtain ⟨hq0, hq1, hq2, hq3⟩ := hq
  have hw0 : (w : Int) ≠ 0 := by omega
  simp only [pixPos] at heq
  have hA' : p1 + p2 * (w : Int) = q1 + q2 * (w : Int) := by
    generalize hA : p1 + p2 * (w : Int) = A at heq
    generalize hB : q1 + q2 * (w : Int) = B at heq
    omega
  have hcc : c = c' := by
    generalize hA : p1 + p2 * (w : Int) = A at heq
    generalize hB : q1 + q2 * (w : Int) = B at heq
    omega
  have e1 : (p1 + p2 * (w : Int)) % (w : Int) = p1 := by
    rw [Int.add_mul_emod_self, Int.emod_eq_of_lt hp0 hp1]
  have e2 : (q1 + q2 * (w : Int)) % (w : Int) = q1 := by
    rw [Int.add_mul_emod_self, Int.emod_eq_of_lt hq0 hq1]
  have d1 : (p1 + p2 * (w : Int)) / (w : Int) = p2 := by
    rw [Int.add_mul_ediv_right _ _ hw0, Int.ediv_eq_zero_of_lt hp0 hp1, Int.zero_add]
  have d2 : (q1 + q2 * (w : Int)) / (w : Int) = q2 := by
    rw [Int.add_mul_ediv_right _ _ hw0, Int.ediv_eq_zero_of_lt hq0 hq1, Int.zero_add]
  refine ⟨?_, hcc⟩
  have hfst : p1 = q1 := by rw [← e1, ← e2, hA']
  have hsnd : p2 = q2 := by rw [← d1, ← d2, hA']
  rw [hfst, hsnd]

/-- C1: for every width ≥ 1, height ≥ 1 and every pixel buffer,
`GilbertAlgo.process` in decrypt mode applied to the result of
`GilbertAlgo.process` in encrypt mode returns the original buffer exactly,
for every channel of every pixel. -/
theorem C1_roundtrip (w h : Nat) (hw : 1 ≤ w) (hh : 1 ≤ h) (data : Int → Nat) :
    gilbertProcess w h CMode.decrypt (gilbertProcess w h CMode.encrypt data) = data := by
  have hN : 1 ≤ w * h := Nat.mul_pos hw hh
  have hσlt : ∀ i : Nat, (i + goldenOffset (w * h)) % (w * h) < w * h :=
    fun i => Nat.mod_lt _ (by omega)
  have hσinj : ∀ i j : Nat, i < w * h → j < w * h →
      (i + goldenOffset (w * h)) % (w * h) = (j + goldenOffset (w * h)) % (w * h) →
      i = j := by
    intro i j hi hj hij
    have h2 : i ≡ j [MOD w * h] := Nat.ModEq.add_right_cancel' (goldenOffset (w * h)) hij
    have h3 : i % (w * h) = j % (w * h) := h2
    rwa [Nat.mod_eq_of_lt hi, Nat.mod_eq_of_lt hj] at h3
  have hkeyInj : ∀ i j c c' : Nat, i < w * h → j < w * h → c < 4 → c' < 4 →
      pixPos w (curveAt w h i) + (c : Int) = pixPos w (curveAt w h j) + (c' : Int) →
      i = j ∧ c = c' := by
    intro i j c c' hi hj hc hc' heq
    have hmi := curveAt_mem_range w h hw hh hi
    have hmj := curveAt_mem_range w h hw hh hj
    obtain ⟨hpq, hcc⟩ := pixPos_inj w h hmi hmj hc hc' heq
    exact ⟨curveAt_inj w h hw hh hi hj hpq, hcc⟩
  funext z
  rw [gilbertProcess_eq_writeAll, gilbertProcess_eq_writeAll]
  have hElookup : ∀ i c : Nat, i < w * h → c < 4 →
      writeAll data (procPairs w h CMode.encrypt data)
        (pixPos w (curveAt w h ((i + goldenOffset (w * h)) % (w * h))) + (c : Int))
      = data (pixPos w (curveAt w h i) + (c : Int)) := by
    intro i c hi hc
    rw [writeAll_key_const (procPairs w h CMode.encrypt data) data _
      (data (pixPos w (curveAt w h i) + (c : Int))) ?hv]
    case hv =>
      intro r hr hr1
      rw [mem_procPairs_encrypt] at hr
      obtain ⟨j, hj, c', hc', rfl⟩ := hr
      have hr1' : pixPos w (curveAt w h ((j + goldenOffset (w * h)) % (w * h))) + (c' : Int)
          = pixPos w (curveAt w h ((i + goldenOffset (w * h)) % (w * h))) + (c : Int) := hr1
      obtain ⟨hσeq, hceq⟩ := hkeyInj _ _ c' c (hσlt j) (hσlt i) hc' hc hr1'
      have hji : j = i := hσinj j i hj hi hσeq
      show data (pixPos w (curveAt w h j) + (c' : Int)) = _
      rw [hji, hceq]
    rw [if_pos ?mem]
    case mem =>
      rw [List.mem_map]
      refine ⟨(pixPos w (curveAt w h ((i + goldenOffset (w * h)) % (w * h))) + (c : Int),
        data (pixPos w (curveAt w h i) + (c : Int))), ?_, rfl⟩
      rw [mem_procPairs_encrypt]
      exact ⟨i, hi, c, hc, rfl⟩
  have hvD : ∀ q ∈ procPairs w h CMode.decrypt
      (writeAll data (procPairs w h CMode.encrypt data)), q.1 = z → q.2 = data z := by
    intro q hq hq1
    rw [mem_procPairs_decrypt] at hq
    obtain ⟨i, hi, c, hc, rfl⟩ := hq
    show writeAll data (procPairs w h CMode.encrypt data)
        (pixPos w (curveAt w h ((i + goldenOffset (w * h)) % (w * h))) + (c : Int)) = data z
    rw [hElookup i c hi hc]
    have hq1' : pixPos w (curveAt w h i) + (c : Int) = z := hq1
    rw [hq1']
  rw [writeAll_key_const _ _ z (data z) hvD]
  by_cases hz : z ∈ (procPairs w h CMode.decrypt
      (writeAll data (procPairs w h CMode.encrypt data))).map Prod.fst
  · rw [if_pos hz]
  · rw [if_neg hz]
    have hzE : z ∉ (procPairs w h CMode.encrypt data).map Prod.fst := by
      intro hmem
      apply hz
      rw [List.mem_map] at hmem
      obtain ⟨r, hr, hr1⟩ := hmem
      rw [mem_procPairs_encrypt] at hr
      obtain ⟨j, hj, c, hc, rfl⟩ := hr
      rw [List.mem_map]
      refine ⟨(pixPos w (curveAt w h ((j + goldenOffset (w * h)) % (w * h))) + (c : Int),
        writeAll data (procPairs w h CMode.encrypt data)
          (pixPos w (curveAt w h (((j + goldenOffset (w * h)) % (w * h)
            + goldenOffset (w * h)) % (w * h))) + (c : Int))), ?_, hr1⟩
      rw [mem_procPairs_decrypt]
      exact ⟨(j + goldenOffset (w * h)) % (w * h), hσlt j, c, hc, rfl⟩
    have hvE : ∀ q ∈ procPairs w h CMode.encrypt data, q.1 = z → q.2 = data z :=
      fun q hq hq1 => absurd (hq1 ▸ List.mem_map_of_mem Prod.fst hq) hzE
    rw [writeAll_key_const _ _ z (data z) hvE, if_neg hzE]

theorem C1_witness :
    gilbertProcess 2 3 CMode.decrypt
        (gilbertProcess 2 3 CMode.encrypt (fun z => z.toNat))
      = (fun z => z.toNat) :=
  C1_roundtrip 2 3 (by decide) (by decide) (fun z => z.toNat)

end ImageCrypto
